import Mathlib

/-!
# NaiveBayes-Ngram: a shallow embedding of `src/src/NaiveBayes.hpp`

The class `nb::NaiveBayes` keeps three `unordered_map`s and an `int`:

* `gram_`         : the "N" of the N-gram split,
* `category_`     : category -> number of `Training` calls,
* `words_`        : category -> (token -> occurrences in the training documents),
* `vocabularies_` : token -> 0 (only the key set and its size are used).

Modelling decisions.

* `std::wstring` is a `List Char`; `substr (pos, count)` is `drop pos` then `take count`.
* `unordered_map<wstring, V>` is an association list. The order of the list is the iteration
  order of the container. The C++ standard leaves the place of a freshly inserted key
  unspecified; the embedding appends it. Statements that mention the iteration order are
  made for an arbitrary list, hence for an arbitrary order.
* `operator[]` inserts a value-initialised entry when the key is absent. This is kept: the
  member functions that read through `operator[]` return the new state next to their result.
* `int` is `Int` (the counters are only ever incremented, signed overflow is undefined
  behaviour and is not modelled). The conversion of `gram_` to `size_t` in the loop condition of
  `SplitWords` is modelled by reduction modulo `2 ^ 64`; the sum `i + gram_` of the condition
  is not reduced, because it is only evaluated without wrap-around for a string below
  `max_size` (a negative `gram_` fails the condition at `i = 0`).
* `double` is `Dbl R`: a number of an arbitrary linearly ordered field `R` or one of the
  special values `+inf`, `-inf`, NaN, with the IEEE 754 rules for `+`, `/`, `log` and `<` on
  them (division by `0.0` gives an infinity or NaN, `log(0.0) = -inf`, `log(+inf) = +inf`,
  every comparison with NaN is false). The logarithm of the positive numbers is a parameter
  `log : R → R`; statements about `ln` instantiate `R` with the real numbers and `log` with
  `Real.log`. `DBL_MAX` (from `<cfloat>`) is the rational number `(2 ^ 53 - 1) * 2 ^ 971`.
  Rounding and the overflow of finite results are not modelled.
-/

namespace nb

/-- Model of `std::wstring`. -/
abbrev wstring := List Char

/-- Model of `std::unordered_map<std::wstring, V>`: the entries in iteration order. -/
abbrev UMap (V : Type) := List (wstring × V)

namespace UMap

variable {V : Type}

/-- Keys of the container, in iteration order. -/
def keys (m : UMap V) : List wstring := m.map Prod.fst

/-- Lookup without insertion (`find`): the value stored under `k`, if any. -/
def find : UMap V → wstring → Option V
  | [], _ => none
  | (k', v) :: rest, k => if k' = k then some v else find rest k

/-- The value `m[k]` refers to: the stored one, or the value-initialised `dflt`. -/
def value (m : UMap V) (k : wstring) (dflt : V) : V := (find m k).getD dflt

/-- The container after `m[k] = f (m[k])`: an absent key is first inserted with `dflt`.
A plain read `m[k]` is `alter m k dflt id`. -/
def alter : UMap V → wstring → V → (V → V) → UMap V
  | [], k, dflt, f => [(k, f dflt)]
  | (k', v) :: rest, k, dflt, f =>
    if k' = k then (k', f v) :: rest else (k', v) :: alter rest k dflt f

end UMap

/-- Source: `using Count = unordered_map<wstring, int>`. -/
abbrev Count := UMap Int

/-- Source: `using CountWords = unordered_map<wstring, Count>`. -/
abbrev CountWords := UMap Count

/-- Conversion of an `int` to `size_t` (64 bit). -/
def size_t (n : Int) : Nat := (n % 2 ^ 64).toNat

/-- Largest value of a 32 bit `int`. -/
def INT_MAX : Int := 2147483647

/-- Smallest value of a 32 bit `int`. -/
def INT_MIN : Int := -2147483648

/-- Source: `wstring::substr (pos, count)` for `pos ≤ length`. -/
def substr (doc : wstring) (pos count : Nat) : wstring := (doc.drop pos).take count

/-- Number of offsets `i` with `i + n ≤ doc.length` at which the window of length `n`
starting at `i` equals `t` (the offsets `0 .. doc.length - n` when `n ≤ doc.length`). -/
def windowCount (doc : wstring) (n : Nat) (t : wstring) : Nat :=
  (List.range (doc.length + 1)).countP
    (fun i => decide (i + n ≤ doc.length) && decide (substr doc i n = t))

/-- Model of `double`: a number of the field `R`, or one of the special values of IEEE 754
(`+inf`, `-inf`, NaN). Rounding, the overflow of a finite result and the sign of zero are not
modelled. -/
inductive Dbl (R : Type) where
  | fin (x : R)
  | pinf
  | ninf
  | nan

namespace Dbl

variable {R : Type} [LinearOrderedField R]

/-- Addition of doubles: NaN is absorbing and `+inf + -inf` is NaN. -/
def add : Dbl R → Dbl R → Dbl R
  | fin x, fin y => fin (x + y)
  | fin _, pinf => pinf
  | fin _, ninf => ninf
  | pinf, fin _ => pinf
  | pinf, pinf => pinf
  | ninf, fin _ => ninf
  | ninf, ninf => ninf
  | _, _ => nan

instance : Add (Dbl R) := ⟨add⟩

instance : Zero (Dbl R) := ⟨fin 0⟩

/-- Quotient `x / y` of two finite doubles. A divisor 0 is `+0.0` (the divisors of the program
are converted integers and their sums): the quotient is `+inf`, `-inf` or NaN by the sign of
`x`. -/
def div (x y : R) : Dbl R :=
  if y = 0 then (if 0 < x then pinf else if x < 0 then ninf else nan) else fin (x / y)

/-- The function `log` of `<cmath>` for a logarithm `lg` of the positive numbers:
`log(0) = -inf`, `log(+inf) = +inf`, NaN for a negative argument, `-inf` and NaN. -/
def log (lg : R → R) : Dbl R → Dbl R
  | fin x => if 0 < x then fin (lg x) else if x = 0 then ninf else nan
  | pinf => pinf
  | _ => nan

/-- The comparison `a < b` of doubles, false whenever an operand is NaN. -/
def lt : Dbl R → Dbl R → Bool
  | fin x, fin y => decide (x < y)
  | fin _, pinf => true
  | ninf, fin _ => true
  | ninf, pinf => true
  | _, _ => false

end Dbl

/-- The data members of `class NaiveBayes`. -/
structure NaiveBayes where
  /-- N of the N-gram. -/
  gram_ : Int
  /-- Category and number of training calls. -/
  category_ : Count
  /-- Per category: token and its number of occurrences. -/
  words_ : CountWords
  /-- Vocabulary over all categories. -/
  vocabularies_ : Count
deriving DecidableEq

namespace NaiveBayes

/-- Source: `NaiveBayes(int n) : gram_(n) {}`; the three containers start empty. -/
def ctor (n : Int) : NaiveBayes :=
  { gram_ := n, category_ := [], words_ := [], vocabularies_ := [] }

/-- The loop of `SplitWords`:
`for (size_t i = 0; i + gram_ <= doc.length(); i++) ret[doc.substr(i, gram_)]++;`
with `g` the value of `gram_` as a `size_t`. The first argument bounds the number of
iterations; `SplitWords` passes `doc.length + 1`, which is never exhausted
(see `SplitWords_loop_fuel`). -/
def SplitWords.loop (g : Nat) (doc : wstring) : Nat → Nat → Count → Count
  | 0, _, ret => ret
  | fuel + 1, i, ret =>
    if i + g ≤ doc.length then
      SplitWords.loop g doc fuel (i + 1) (UMap.alter ret (substr doc i g) 0 (· + 1))
    else ret

/-- Source: `SplitWords` (lines 46-52). -/
def SplitWords (m : NaiveBayes) (doc : wstring) : Count :=
  SplitWords.loop (size_t m.gram_) doc (doc.length + 1) 0 []

/-- Source: `SumCategory` (lines 59-61): `accumulate` over `words_[cate]`; the read
`words_[cate]` inserts an empty table for an unknown category. -/
def SumCategory (m : NaiveBayes) (cate : wstring) : Int × NaiveBayes :=
  ((UMap.value m.words_ cate []).foldl (fun sum w => sum + w.2) 0,
   { m with words_ := UMap.alter m.words_ cate [] id })

/-- Source: `InCategory` (lines 69-71): `return (words_[cate])[word];`. Both reads go through
`operator[]`, so an unknown category and an unknown word are inserted (with count 0). -/
def InCategory (m : NaiveBayes) (word cate : wstring) : Int × NaiveBayes :=
  (UMap.value (UMap.value m.words_ cate []) word 0,
   { m with words_ := UMap.alter m.words_ cate [] (fun tbl => UMap.alter tbl word 0 id) })

variable {R : Type} [LinearOrderedField R]

/-- Body of the loop of `Score` for the entry `w` of `words`; the accumulator is `(s, state)`:
`s += log((InCategory(w.first, cate) + 1.0) / (double)(sum_cate + vocabularies_.size()*1.0));` -/
def Score.step (log : R → R) (cate : wstring) (sum_cate : Int) (acc : Dbl R × NaiveBayes)
    (w : wstring × Int) : Dbl R × NaiveBayes :=
  let r := InCategory acc.2 w.1 cate
  (acc.1 + Dbl.log log (Dbl.div ((r.1 : Int) + 1 : R)
      ((sum_cate : R) + (r.2.vocabularies_.length : R) * 1)),
   r.2)

/-- Source: `Score` (lines 80-89). `category_[cate]` is a read through `operator[]`; the loop
adds one logarithm per entry of `words` and does not read the count `w.second`. The operands of
`(double)category_[cate] / category_.size()` are unsequenced in C++; the embedding reads
`category_[cate]` first, which matters only for a category that is no key of `category_`
(`Classifier` never passes one). -/
def Score (log : R → R) (m : NaiveBayes) (words : Count) (cate : wstring) (sum_cate : Int) :
    Dbl R × NaiveBayes :=
  let m0 : NaiveBayes := { m with category_ := UMap.alter m.category_ cate 0 id }
  let s : Dbl R :=
    Dbl.log log (Dbl.div ((UMap.value m.category_ cate 0 : Int) : R) (m0.category_.length : R))
  words.foldl (Score.step log cate sum_cate) (s, m0)

/-- Body of the loop of `Training` for the entry `w` of `words`:
`vocabularies_[w.first] = 0; (words_[cate])[w.first] += w.second;` -/
def Training.step (cate : wstring) (st : NaiveBayes) (w : wstring × Int) : NaiveBayes :=
  { st with
    vocabularies_ := UMap.alter st.vocabularies_ w.1 0 (fun _ => 0)
    words_ := UMap.alter st.words_ cate [] (fun tbl => UMap.alter tbl w.1 0 (· + w.2)) }

/-- Source: `Training` (lines 99-106). -/
def Training (m : NaiveBayes) (doc cate : wstring) : NaiveBayes :=
  let words := SplitWords m doc
  let m1 := words.foldl (Training.step cate) m
  { m1 with category_ := UMap.alter m1.category_ cate 0 (· + 1) }

/-- The count `TokenCounts[c][t]` of the model, 0 when the category or the token is absent. -/
def tokenCount (m : NaiveBayes) (c t : wstring) : Int :=
  UMap.value (UMap.value m.words_ c []) t 0

end NaiveBayes

/-- Source: `DBL_MAX` of `<cfloat>`, the largest finite `double`. -/
def DBL_MAX {R : Type} [LinearOrderedField R] : R := (2 ^ 53 - 1) * 2 ^ 971

namespace NaiveBayes

variable {R : Type} [LinearOrderedField R]

/-- One iteration of the loop of `Classifier` for the entry `cate` of `category_`;
the accumulator is `(best, max, state)` and the test is `if (s > max)`. -/
def Classifier.step (log : R → R) (words : Count) (acc : wstring × Dbl R × NaiveBayes)
    (cate : wstring × Int) : wstring × Dbl R × NaiveBayes :=
  let sc := SumCategory acc.2.2 cate.1
  let r := Score log sc.2 words cate.1 sc.1
  if Dbl.lt acc.2.1 r.1 then (cate.1, r.1, r.2) else (acc.1, acc.2.1, r.2)

/-- Source: `Classifier` (lines 113-127): returns the label and the state after the call.
The loop runs over the entries of `category_` at the call; the body does not change
`category_` (see `Classifier_snd`). -/
def Classifier (log : R → R) (m : NaiveBayes) (doc : wstring) : wstring × NaiveBayes :=
  let words := SplitWords m doc
  let r := m.category_.foldl (Classifier.step log words) ([], Dbl.fin (-DBL_MAX), m)
  (r.1, r.2.2)

end NaiveBayes

/-- A call of one of the two public member functions. -/
inductive Call where
  | Training (doc cate : wstring)
  | Classifier (doc : wstring)
deriving DecidableEq

namespace NaiveBayes

variable {R : Type} [LinearOrderedField R]

/-- State after one public call. -/
def exec (log : R → R) (m : NaiveBayes) : Call → NaiveBayes
  | .Training doc cate => Training m doc cate
  | .Classifier doc => (Classifier log m doc).2

/-- State after a sequence of public calls, the first call first. -/
def run (log : R → R) (m : NaiveBayes) (calls : List Call) : NaiveBayes :=
  calls.foldl (exec log) m

end NaiveBayes

/-! ## Definitions used to state the properties -/

namespace NaiveBayes

variable {R : Type} [LinearOrderedField R]

/-- The relation between a state and a later state that differs at most by entries with
count 0 added to `words_`. -/
structure SameCounts (m m' : NaiveBayes) : Prop where
  gram : m'.gram_ = m.gram_
  category : m'.category_ = m.category_
  vocabularies : m'.vocabularies_ = m.vocabularies_
  count : ∀ c t, tokenCount m' c t = tokenCount m c t
  total : ∀ c, (SumCategory m' c).1 = (SumCategory m c).1
  cats : ∀ c, c ∈ UMap.keys m.words_ → c ∈ UMap.keys m'.words_
  toks : ∀ c t, t ∈ UMap.keys (UMap.value m.words_ c []) →
    t ∈ UMap.keys (UMap.value m'.words_ c [])

/-- The score `Classifier` computes for category `c` and document `doc`, taken in the state
`m` in which `Classifier` is called. -/
def categoryScore (log : R → R) (m : NaiveBayes) (doc c : wstring) : Dbl R :=
  (Score log (SumCategory m c).2 (SplitWords m doc) c (SumCategory m c).1).1

/-- The loop of `Classifier` without the state: `(best, max)` after the entry `cate`, for a
score function `f`. -/
def Classifier.pick (f : wstring → Dbl R) (acc : wstring × Dbl R) (cate : wstring × Int) :
    wstring × Dbl R :=
  if Dbl.lt acc.2 (f cate.1) then (cate.1, f cate.1) else acc

/-- The number `Score` computes when no special value occurs: the prior term plus one
logarithm per entry of `words`, in the field. -/
def scoreValue (log : R → R) (m : NaiveBayes) (words : Count) (cate : wstring)
    (sum_cate : Int) : R :=
  log (((UMap.value m.category_ cate 0 : Int) : R) / (m.category_.length : R)) +
    (words.map (fun w => log (((tokenCount m cate w.1 : Int) + 1 : R)
      / ((sum_cate : R) + (m.vocabularies_.length : R))))).sum

/-- The score as section 4.3 of the specification words it: every logarithm is multiplied
by the count of its token in the document. -/
def ScoreSpec (log : R → R) (m : NaiveBayes) (words : Count) (cate : wstring) (sum_cate : Int) :
    R :=
  log (((UMap.value m.category_ cate 0 : Int) : R) / (m.category_.length : R)) +
    (words.map (fun w => (w.2 : R) * log (((tokenCount m cate w.1 : Int) + 1 : R)
      / ((sum_cate : R) + (m.vocabularies_.length : R))))).sum

/-- The calls `Training(doc, cate)` for a list of pairs `(doc, cate)`. -/
def trainingCalls (docs : List (wstring × wstring)) : List Call :=
  docs.map (fun p => Call.Training p.1 p.2)

/-- Sum of the counts of a mapping, as `accumulate` computes it in `SumCategory`. -/
def totalCount (tbl : Count) : Int := tbl.foldl (fun sum w => sum + w.2) 0

/-- Number of N-gram instances a call contributes to category `c` for width `n`:
`length - n + 1` for a `Training` call under `c` with a document of at least `n`
characters, 0 for any other call. -/
def instancesOf (n : Nat) (c : wstring) : Call → Nat
  | .Training doc cate => if cate = c ∧ n ≤ doc.length then doc.length - n + 1 else 0
  | .Classifier _ => 0

/-- Number of N-gram instances in the documents trained under `c` in a sequence of calls. -/
def trainedInstances (n : Nat) (c : wstring) (calls : List Call) : Nat :=
  (calls.map (instancesOf n c)).sum

/-- The state `m` with the entries of `category_` replaced by `cats`; with a permutation of
`m.category_` this is `m` under another iteration order of the categories. -/
def withOrder (m : NaiveBayes) (cats : Count) : NaiveBayes := { m with category_ := cats }

/-- The state after `Training("", "A")`, `Training("", "A")`, `Training("", "B")` on a model
constructed with n = 1: two categories, no token, an empty vocabulary. -/
def emptyDocsModel : NaiveBayes :=
  Training (Training (Training (ctor 1) [] ['A']) [] ['A']) [] ['B']

end NaiveBayes

/-! ## Association lists -/

namespace UMap

variable {V : Type}

theorem keys_nil : keys ([] : UMap V) = [] := rfl

theorem keys_cons (a : wstring) (v : V) (rest : UMap V) :
    keys ((a, v) :: rest) = a :: keys rest := rfl

theorem find_nil (k : wstring) : find ([] : UMap V) k = none := rfl

theorem find_cons_self (k : wstring) (v : V) (rest : UMap V) :
    find ((k, v) :: rest) k = some v := by
  simp only [find, if_true]

theorem find_cons_ne {a k : wstring} (v : V) (rest : UMap V) (h : a ≠ k) :
    find ((a, v) :: rest) k = find rest k := by
  simp only [find, if_neg h]

theorem alter_nil (k : wstring) (d : V) (f : V → V) : alter [] k d f = [(k, f d)] := rfl

theorem alter_cons_self (k : wstring) (v : V) (rest : UMap V) (d : V) (f : V → V) :
    alter ((k, v) :: rest) k d f = (k, f v) :: rest := by
  simp only [alter, if_true]

theorem alter_cons_ne {a k : wstring} (v : V) (rest : UMap V) (d : V) (f : V → V) (h : a ≠ k) :
    alter ((a, v) :: rest) k d f = (a, v) :: alter rest k d f := by
  simp only [alter, if_neg h]

theorem mem_keys_alter (m : UMap V) (k k' : wstring) (d : V) (f : V → V) :
    k' ∈ keys (alter m k d f) ↔ k' ∈ keys m ∨ k' = k := by
  induction m with
  | nil => simp [alter_nil, keys_nil, keys_cons]
  | cons e rest ih =>
    obtain ⟨a, v⟩ := e
    by_cases h : a = k
    · subst h
      rw [alter_cons_self, keys_cons, keys_cons, List.mem_cons]
      tauto
    · rw [alter_cons_ne _ _ _ _ h, keys_cons, keys_cons, List.mem_cons, List.mem_cons, ih]
      tauto

theorem find_alter_self (m : UMap V) (k : wstring) (d : V) (f : V → V) :
    find (alter m k d f) k = some (f (value m k d)) := by
  induction m with
  | nil => simp [alter_nil, find_cons_self, find_nil, value]
  | cons e rest ih =>
    obtain ⟨a, v⟩ := e
    by_cases h : a = k
    · subst h
      simp [alter_cons_self, find_cons_self, value]
    · rw [alter_cons_ne _ _ _ _ h, find_cons_ne _ _ h, ih]
      simp [value, find_cons_ne _ _ h]

theorem find_alter_ne (m : UMap V) {k k' : wstring} (d : V) (f : V → V) (h : k' ≠ k) :
    find (alter m k d f) k' = find m k' := by
  induction m with
  | nil => rw [alter_nil, find_cons_ne _ _ (Ne.symm h)]
  | cons e rest ih =>
    obtain ⟨a, v⟩ := e
    by_cases hk : a = k
    · subst hk
      rw [alter_cons_self, find_cons_ne _ _ (Ne.symm h), find_cons_ne _ _ (Ne.symm h)]
    · rw [alter_cons_ne _ _ _ _ hk]
      by_cases hk' : a = k'
      · subst hk'
        rw [find_cons_self, find_cons_self]
      · rw [find_cons_ne _ _ hk', find_cons_ne _ _ hk', ih]

theorem value_alter_self (m : UMap V) (k : wstring) (d : V) (f : V → V) :
    value (alter m k d f) k d = f (value m k d) := by
  simp [value, find_alter_self]

theorem value_alter_ne (m : UMap V) {k k' : wstring} (d : V) (f : V → V) (h : k' ≠ k) :
    value (alter m k d f) k' d = value m k' d := by
  simp [value, find_alter_ne m d f h]

theorem find_eq_none_iff (m : UMap V) (k : wstring) : find m k = none ↔ k ∉ keys m := by
  induction m with
  | nil => simp [find_nil, keys_nil]
  | cons e rest ih =>
    obtain ⟨a, v⟩ := e
    by_cases h : a = k
    · subst h
      simp [find_cons_self, keys_cons]
    · rw [find_cons_ne _ _ h, ih, keys_cons, List.mem_cons, not_or]
      constructor
      · intro h2
        exact ⟨fun h3 => h h3.symm, h2⟩
      · intro h2
        exact h2.2

theorem mem_keys_iff_find (m : UMap V) (k : wstring) : k ∈ keys m ↔ ∃ v, find m k = some v := by
  rw [← not_iff_not, ← find_eq_none_iff]
  cases find m k <;> simp

theorem alter_id_of_mem (m : UMap V) {k : wstring} (d : V) (h : k ∈ keys m) :
    alter m k d id = m := by
  induction m with
  | nil => simp [keys_nil] at h
  | cons e rest ih =>
    obtain ⟨a, v⟩ := e
    by_cases hk : a = k
    · subst hk
      rw [alter_cons_self]
      rfl
    · rw [alter_cons_ne _ _ _ _ hk]
      rw [keys_cons, List.mem_cons] at h
      rcases h with h | h
      · exact absurd h.symm hk
      · rw [ih h]

theorem length_alter_of_mem (m : UMap V) {k : wstring} (d : V) (f : V → V) (h : k ∈ keys m) :
    (alter m k d f).length = m.length := by
  induction m with
  | nil => simp [keys_nil] at h
  | cons e rest ih =>
    obtain ⟨a, v⟩ := e
    by_cases hk : a = k
    · subst hk
      rw [alter_cons_self]
      rfl
    · rw [alter_cons_ne _ _ _ _ hk, List.length_cons, List.length_cons]
      rw [keys_cons, List.mem_cons] at h
      rcases h with h | h
      · exact absurd h.symm hk
      · rw [ih h]

theorem nodup_keys_alter (m : UMap V) (k : wstring) (d : V) (f : V → V)
    (h : (keys m).Nodup) : (keys (alter m k d f)).Nodup := by
  induction m with
  | nil => simp [alter_nil, keys_nil, keys_cons]
  | cons e rest ih =>
    obtain ⟨a, v⟩ := e
    by_cases hk : a = k
    · subst hk
      rw [alter_cons_self, keys_cons]
      rw [keys_cons] at h
      exact h
    · rw [alter_cons_ne _ _ _ _ hk, keys_cons, List.nodup_cons]
      rw [keys_cons, List.nodup_cons] at h
      refine ⟨?_, ih h.2⟩
      rw [mem_keys_alter]
      rintro (h4 | h4)
      · exact h.1 h4
      · exact hk h4

theorem value_eq_zero_of_not_mem {m : UMap Int} {k : wstring} (h : k ∉ keys m) :
    value m k 0 = 0 := by
  rw [← find_eq_none_iff] at h
  simp [value, h]

end UMap

/-! ## The tokenizer -/

theorem size_t_of_nonneg {n : Int} (h0 : 0 ≤ n) (h1 : n ≤ INT_MAX) : size_t n = n.toNat := by
  unfold size_t
  unfold INT_MAX at h1
  rw [Int.emod_eq_of_lt h0 (by omega)]

namespace NaiveBayes

/-- The iteration bound of `SplitWords.loop` is not what ends the loop: once
`doc.length < i + fuel`, more fuel gives the same result. -/
theorem SplitWords_loop_fuel (g : Nat) (doc : wstring) (k : Nat) :
    ∀ (fuel i : Nat) (ret : Count), doc.length < i + fuel →
      SplitWords.loop g doc (fuel + k) i ret = SplitWords.loop g doc fuel i ret := by
  intro fuel
  induction fuel with
  | zero =>
    intro i ret h
    cases k with
    | zero => rfl
    | succ k =>
      have hc : ¬ (i + g ≤ doc.length) := by omega
      simp only [Nat.zero_add, SplitWords.loop, if_neg hc]
  | succ fuel ih =>
    intro i ret h
    have e : fuel + 1 + k = (fuel + k) + 1 := by omega
    rw [e]
    simp only [SplitWords.loop]
    by_cases hc : i + g ≤ doc.length
    · rw [if_pos hc, if_pos hc]
      exact ih (i + 1) _ (by omega)
    · rw [if_neg hc, if_neg hc]

/-- The result of `SplitWords` is that of the loop run to its end: no larger iteration bound
changes it. -/
theorem SplitWords_fuel (m : NaiveBayes) (doc : wstring) (k : Nat) :
    SplitWords.loop (size_t m.gram_) doc (doc.length + 1 + k) 0 [] = SplitWords m doc :=
  SplitWords_loop_fuel _ doc k (doc.length + 1) 0 [] (by omega)

theorem SplitWords_loop_value (g : Nat) (doc : wstring) (t : wstring) :
    ∀ (fuel i : Nat) (ret : Count),
      UMap.value (SplitWords.loop g doc fuel i ret) t 0 = UMap.value ret t 0 +
        ((List.range' i fuel).countP
          (fun j => decide (j + g ≤ doc.length) && decide (substr doc j g = t)) : Nat) := by
  intro fuel
  induction fuel with
  | zero =>
    intro i ret
    simp [SplitWords.loop]
  | succ fuel ih =>
    intro i ret
    simp only [SplitWords.loop, List.range'_succ, List.countP_cons]
    by_cases hc : i + g ≤ doc.length
    · rw [if_pos hc, ih]
      by_cases ht : substr doc i g = t
      · subst ht
        rw [UMap.value_alter_self]
        simp [hc]
        ring
      · rw [UMap.value_alter_ne _ _ _ (Ne.symm ht)]
        simp [hc, ht]
    · rw [if_neg hc]
      have hz : (List.range' (i + 1) fuel).countP
          (fun j => decide (j + g ≤ doc.length) && decide (substr doc j g = t)) = 0 := by
        rw [List.countP_eq_zero]
        intro j hj
        rw [List.mem_range'_1] at hj
        have : ¬ (j + g ≤ doc.length) := by omega
        simp [this]
      simp [hc, hz]

theorem SplitWords_loop_keys (g : Nat) (doc : wstring) (t : wstring) :
    ∀ (fuel i : Nat) (ret : Count),
      t ∈ UMap.keys (SplitWords.loop g doc fuel i ret) ↔
        t ∈ UMap.keys ret ∨ ∃ j, i ≤ j ∧ j < i + fuel ∧ j + g ≤ doc.length ∧ substr doc j g = t := by
  intro fuel
  induction fuel with
  | zero =>
    intro i ret
    simp only [SplitWords.loop, Nat.add_zero]
    constructor
    · intro h
      exact Or.inl h
    · rintro (h | ⟨j, h1, h2, _⟩)
      · exact h
      · omega
  | succ fuel ih =>
    intro i ret
    simp only [SplitWords.loop]
    by_cases hc : i + g ≤ doc.length
    · rw [if_pos hc, ih, UMap.mem_keys_alter]
      constructor
      · rintro ((h | h) | ⟨j, h1, h2, h3, h4⟩)
        · exact Or.inl h
        · exact Or.inr ⟨i, le_refl i, by omega, hc, h.symm⟩
        · exact Or.inr ⟨j, by omega, by omega, h3, h4⟩
      · rintro (h | ⟨j, h1, h2, h3, h4⟩)
        · exact Or.inl (Or.inl h)
        · by_cases hj : j = i
          · subst hj
            exact Or.inl (Or.inr h4.symm)
          · exact Or.inr ⟨j, by omega, by omega, h3, h4⟩
    · rw [if_neg hc]
      constructor
      · intro h
        exact Or.inl h
      · rintro (h | ⟨j, h1, h2, h3, h4⟩)
        · exact h
        · omega

theorem SplitWords_loop_nodup (g : Nat) (doc : wstring) :
    ∀ (fuel i : Nat) (ret : Count), (UMap.keys ret).Nodup →
      (UMap.keys (SplitWords.loop g doc fuel i ret)).Nodup := by
  intro fuel
  induction fuel with
  | zero =>
    intro i ret h
    exact h
  | succ fuel ih =>
    intro i ret h
    simp only [SplitWords.loop]
    by_cases hc : i + g ≤ doc.length
    · rw [if_pos hc]
      exact ih _ _ (UMap.nodup_keys_alter _ _ _ _ h)
    · rw [if_neg hc]
      exact h

theorem SplitWords_nodup (m : NaiveBayes) (doc : wstring) :
    (UMap.keys (SplitWords m doc)).Nodup :=
  SplitWords_loop_nodup _ _ _ _ _ List.nodup_nil

theorem SplitWords_value (m : NaiveBayes) (doc t : wstring) :
    UMap.value (SplitWords m doc) t 0 = (windowCount doc (size_t m.gram_) t : Int) := by
  unfold SplitWords windowCount
  rw [SplitWords_loop_value, List.range_eq_range']
  simp [UMap.value, UMap.find_nil]

theorem mem_keys_SplitWords (m : NaiveBayes) (doc t : wstring) :
    t ∈ UMap.keys (SplitWords m doc) ↔
      ∃ i, i + size_t m.gram_ ≤ doc.length ∧ substr doc i (size_t m.gram_) = t := by
  unfold SplitWords
  rw [SplitWords_loop_keys]
  constructor
  · rintro (h | ⟨j, _, _, h3, h4⟩)
    · simp [UMap.keys_nil] at h
    · exact ⟨j, h3, h4⟩
  · rintro ⟨j, h3, h4⟩
    exact Or.inr ⟨j, Nat.zero_le j, by omega, h3, h4⟩

end NaiveBayes

/-! ## Training -/

namespace UMap

/-- Sum of the values stored under the key `t` in a list of entries. -/
theorem value_add_of_nodup (t : wstring) :
    ∀ (l : Count), (keys l).Nodup →
      (l.filter (fun w => decide (w.1 = t))).foldr (fun w acc => w.2 + acc) 0 = value l t 0 := by
  intro l
  induction l with
  | nil =>
    intro _
    simp [value, find_nil]
  | cons e rest ih =>
    obtain ⟨a, v⟩ := e
    intro h
    rw [keys_cons, List.nodup_cons] at h
    by_cases ha : a = t
    · subst ha
      have h0 : rest.filter (fun w => decide (w.1 = a)) = [] := by
        rw [List.filter_eq_nil_iff]
        intro w hw hw2
        apply h.1
        have : w.1 = a := by simpa using hw2
        rw [← this]
        exact List.mem_map_of_mem Prod.fst hw
      simp [List.filter_cons, h0, value, find_cons_self]
    · have := ih h.2
      simp only [value] at this ⊢
      rw [find_cons_ne _ _ ha, ← this]
      simp [List.filter_cons, ha]

end UMap

namespace NaiveBayes

theorem Training_fold_gram (cate : wstring) (words : Count) :
    ∀ m : NaiveBayes, (words.foldl (Training.step cate) m).gram_ = m.gram_ := by
  induction words with
  | nil => intro m; rfl
  | cons w rest ih => intro m; rw [List.foldl_cons, ih]; rfl

theorem Training_fold_category (cate : wstring) (words : Count) :
    ∀ m : NaiveBayes, (words.foldl (Training.step cate) m).category_ = m.category_ := by
  induction words with
  | nil => intro m; rfl
  | cons w rest ih => intro m; rw [List.foldl_cons, ih]; rfl

theorem tokenCount_Training_step (cate : wstring) (st : NaiveBayes) (w : wstring × Int)
    (t : wstring) :
    tokenCount (Training.step cate st w) cate t
      = tokenCount st cate t + (if w.1 = t then w.2 else 0) := by
  unfold tokenCount Training.step
  simp only []
  rw [UMap.value_alter_self]
  by_cases h : w.1 = t
  · subst h
    rw [UMap.value_alter_self, if_pos rfl]
  · rw [UMap.value_alter_ne _ _ _ (Ne.symm h), if_neg h, add_zero]

theorem tokenCount_Training_fold (cate t : wstring) (words : Count) :
    ∀ m : NaiveBayes, tokenCount (words.foldl (Training.step cate) m) cate t
      = tokenCount m cate t
        + (words.filter (fun w => decide (w.1 = t))).foldr (fun w acc => w.2 + acc) 0 := by
  induction words with
  | nil => intro m; simp
  | cons w rest ih =>
    intro m
    rw [List.foldl_cons, ih, tokenCount_Training_step]
    by_cases h : w.1 = t
    · simp [List.filter_cons, h]
      ring
    · simp [List.filter_cons, h]

theorem find_words_Training_fold (cate : wstring) {c : wstring} (h : c ≠ cate) (words : Count) :
    ∀ m : NaiveBayes, UMap.find (words.foldl (Training.step cate) m).words_ c
      = UMap.find m.words_ c := by
  induction words with
  | nil => intro m; rfl
  | cons w rest ih =>
    intro m
    rw [List.foldl_cons, ih]
    exact UMap.find_alter_ne _ _ _ h

theorem mem_keys_words_Training_fold (cate c : wstring) (words : Count) :
    ∀ m : NaiveBayes, c ∈ UMap.keys (words.foldl (Training.step cate) m).words_ ↔
      c ∈ UMap.keys m.words_ ∨ (c = cate ∧ words ≠ []) := by
  induction words with
  | nil => intro m; simp
  | cons w rest ih =>
    intro m
    rw [List.foldl_cons, ih]
    simp only [Training.step, UMap.mem_keys_alter]
    constructor
    · rintro ((h | h) | ⟨h, _⟩)
      · exact Or.inl h
      · exact Or.inr ⟨h, List.cons_ne_nil _ _⟩
      · exact Or.inr ⟨h, List.cons_ne_nil _ _⟩
    · rintro (h | ⟨h, _⟩)
      · exact Or.inl (Or.inl h)
      · exact Or.inl (Or.inr h)

theorem mem_keys_vocabularies_Training_fold (cate t : wstring) (words : Count) :
    ∀ m : NaiveBayes, t ∈ UMap.keys (words.foldl (Training.step cate) m).vocabularies_ ↔
      t ∈ UMap.keys m.vocabularies_ ∨ t ∈ UMap.keys words := by
  induction words with
  | nil => intro m; simp [UMap.keys_nil]
  | cons w rest ih =>
    intro m
    obtain ⟨a, v⟩ := w
    rw [List.foldl_cons, ih, UMap.keys_cons, List.mem_cons]
    simp only [Training.step, UMap.mem_keys_alter]
    tauto

theorem Training_category (m : NaiveBayes) (doc cate : wstring) :
    (Training m doc cate).category_ = UMap.alter m.category_ cate 0 (· + 1) := by
  unfold Training
  simp only [Training_fold_category]

theorem Training_gram (m : NaiveBayes) (doc cate : wstring) :
    (Training m doc cate).gram_ = m.gram_ := by
  unfold Training
  simp only [Training_fold_gram]

theorem Training_words (m : NaiveBayes) (doc cate : wstring) :
    (Training m doc cate).words_ = ((SplitWords m doc).foldl (Training.step cate) m).words_ :=
  rfl

theorem Training_vocabularies (m : NaiveBayes) (doc cate : wstring) :
    (Training m doc cate).vocabularies_
      = ((SplitWords m doc).foldl (Training.step cate) m).vocabularies_ :=
  rfl

end NaiveBayes

/-! ## What the reads through `operator[]` change -/

namespace UMap

theorem foldl_alter_id (w : wstring) :
    ∀ (tbl : Count) (a : Int),
      (alter tbl w 0 id).foldl (fun sum e => sum + e.2) a = tbl.foldl (fun sum e => sum + e.2) a := by
  intro tbl
  induction tbl with
  | nil =>
    intro a
    simp [alter_nil]
  | cons e rest ih =>
    intro a
    obtain ⟨k, v⟩ := e
    by_cases h : k = w
    · subst h
      rw [alter_cons_self]
      rfl
    · rw [alter_cons_ne _ _ _ _ h, List.foldl_cons, List.foldl_cons, ih]

theorem value_alter (m : UMap V) (k k' : wstring) (d : V) (f : V → V) :
    value (alter m k d f) k' d = if k' = k then f (value m k d) else value m k' d := by
  by_cases h : k' = k
  · subst h
    rw [if_pos rfl, value_alter_self]
  · rw [if_neg h, value_alter_ne _ _ _ h]

end UMap

namespace NaiveBayes

theorem SameCounts.refl (m : NaiveBayes) : SameCounts m m :=
  ⟨rfl, rfl, rfl, fun _ _ => rfl, fun _ => rfl, fun _ h => h, fun _ _ h => h⟩

theorem SameCounts.trans {a b c : NaiveBayes} (h1 : SameCounts a b) (h2 : SameCounts b c) :
    SameCounts a c :=
  ⟨h2.gram.trans h1.gram, h2.category.trans h1.category,
    h2.vocabularies.trans h1.vocabularies,
    fun x t => (h2.count x t).trans (h1.count x t),
    fun x => (h2.total x).trans (h1.total x),
    fun x h => h2.cats x (h1.cats x h),
    fun x t h => h2.toks x t (h1.toks x t h)⟩

/-- Replacing the table of one category by one with the same counts, the same total and at
least the same keys gives a state with the same counts. -/
theorem SameCounts_touch (m : NaiveBayes) (c : wstring) (g : Count → Count)
    (hv : ∀ tbl t, UMap.value (g tbl) t 0 = UMap.value tbl t 0)
    (hs : ∀ tbl, (g tbl).foldl (fun sum e => sum + e.2) 0 = tbl.foldl (fun sum e => sum + e.2) 0)
    (hk : ∀ tbl t, t ∈ UMap.keys tbl → t ∈ UMap.keys (g tbl)) :
    SameCounts m { m with words_ := UMap.alter m.words_ c [] g } := by
  refine ⟨rfl, rfl, rfl, ?_, ?_, ?_, ?_⟩
  · intro x t
    simp only [tokenCount, UMap.value_alter]
    by_cases h : x = c
    · subst h
      rw [if_pos rfl, hv]
    · rw [if_neg h]
  · intro x
    simp only [SumCategory, UMap.value_alter]
    by_cases h : x = c
    · subst h
      rw [if_pos rfl, hs]
    · rw [if_neg h]
  · intro x h
    rw [UMap.mem_keys_alter]
    exact Or.inl h
  · intro x t h
    simp only [UMap.value_alter]
    by_cases hx : x = c
    · subst hx
      rw [if_pos rfl]
      exact hk _ _ h
    · rw [if_neg hx]
      exact h

theorem SameCounts_SumCategory (m : NaiveBayes) (c : wstring) :
    SameCounts m (SumCategory m c).2 :=
  SameCounts_touch m c id (fun _ _ => rfl) (fun _ => rfl) (fun _ _ h => h)

theorem SameCounts_InCategory (m : NaiveBayes) (w c : wstring) :
    SameCounts m (InCategory m w c).2 :=
  SameCounts_touch m c (fun tbl => UMap.alter tbl w 0 id)
    (fun tbl t => by
      by_cases h : t = w
      · subst h
        rw [UMap.value_alter_self]
        rfl
      · rw [UMap.value_alter_ne _ _ _ h])
    (fun tbl => UMap.foldl_alter_id w tbl 0)
    (fun tbl t h => by
      rw [UMap.mem_keys_alter]
      exact Or.inl h)

end NaiveBayes

/-! ## Arithmetic of doubles -/

namespace Dbl

variable {R : Type} [LinearOrderedField R]

theorem add_def (a b : Dbl R) : a + b = add a b := rfl

theorem zero_def : (0 : Dbl R) = fin 0 := rfl

theorem fin_add_fin (x y : R) : (fin x + fin y : Dbl R) = fin (x + y) := rfl

theorem fin_add_pinf (x : R) : (fin x + pinf : Dbl R) = pinf := rfl

theorem pinf_add_pinf : (pinf + pinf : Dbl R) = pinf := rfl

theorem add_zero_right (a : Dbl R) : a + 0 = a := by
  cases a <;> simp [add_def, zero_def, add]

theorem add_assoc_dbl (a b c : Dbl R) : a + b + c = a + (b + c) := by
  cases a <;> cases b <;> cases c <;> simp [add_def, add, add_assoc]

theorem sum_map_fin {α : Type} (g : α → R) (l : List α) :
    (l.map (fun w => (fin (g w) : Dbl R))).sum = fin ((l.map g).sum) := by
  induction l with
  | nil => rfl
  | cons w rest ih => rw [List.map_cons, List.sum_cons, ih, List.map_cons, List.sum_cons,
      fin_add_fin]

theorem sum_map_pinf {α : Type} (l : List α) (h : l ≠ []) :
    (l.map (fun _ => (pinf : Dbl R))).sum = pinf := by
  induction l with
  | nil => exact absurd rfl h
  | cons w rest ih =>
    rw [List.map_cons, List.sum_cons]
    cases rest with
    | nil => rfl
    | cons x xs => rw [ih (List.cons_ne_nil _ _), pinf_add_pinf]

theorem div_of_ne_zero (x : R) {y : R} (h : y ≠ 0) : div x y = fin (x / y) := by
  unfold div
  rw [if_neg h]

theorem div_zero_of_pos {x : R} (h : 0 < x) : div x 0 = (pinf : Dbl R) := by
  unfold div
  rw [if_pos rfl, if_pos h]

theorem log_fin_of_pos (lg : R → R) {x : R} (h : 0 < x) : log lg (fin x) = fin (lg x) := by
  simp only [log]
  rw [if_pos h]

theorem log_div_of_pos (lg : R → R) {x y : R} (hx : 0 < x) (hy : 0 < y) :
    log lg (div x y) = fin (lg (x / y)) := by
  rw [div_of_ne_zero x (ne_of_gt hy), log_fin_of_pos lg (div_pos hx hy)]

theorem log_div_zero (lg : R → R) {x : R} (hx : 0 < x) : log lg (div x 0) = pinf := by
  rw [div_zero_of_pos hx]
  rfl

theorem lt_fin_fin (x y : R) : lt (fin x) (fin y) = true ↔ x < y := by
  simp [lt]

theorem lt_fin_pinf (x : R) : lt (fin x) (pinf : Dbl R) = true := rfl

theorem lt_pinf (a : Dbl R) : lt (pinf : Dbl R) a = false := by
  cases a <;> rfl

theorem lt_nan_right (a : Dbl R) : lt a (nan : Dbl R) = false := by
  cases a <;> rfl

theorem lt_nan_left (a : Dbl R) : lt (nan : Dbl R) a = false := by
  cases a <;> rfl

theorem lt_self (a : Dbl R) : lt a a = false := by
  cases a <;> simp [lt]

theorem lt_trans_dbl {a b c : Dbl R} (h1 : lt a b = true) (h2 : lt b c = true) :
    lt a c = true := by
  cases a <;> cases b <;> cases c <;> simp [lt] at h1 h2 ⊢
  exact lt_trans h1 h2

/-- For a `b` that is not NaN: of `a < c` and not `a < b` follows `b < c`. -/
theorem lt_of_not_lt_of_lt {a b c : Dbl R} (hb : b ≠ nan) (h1 : lt a b = false)
    (h2 : lt a c = true) : lt b c = true := by
  cases a <;> cases b <;> cases c <;> simp [lt] at h1 h2 hb ⊢
  exact lt_of_le_of_lt h1 h2

theorem lt_asymm_dbl {a b : Dbl R} (h : lt a b = true) : lt b a = false := by
  cases hba : lt b a with
  | false => rfl
  | true =>
    have := lt_trans_dbl h hba
    rw [lt_self] at this
    exact absurd this (by decide)

theorem ne_nan_of_lt_left {a b : Dbl R} (h : lt a b = true) : a ≠ nan := by
  intro e
  rw [e, lt_nan_left] at h
  exact absurd h (by decide)

theorem ne_nan_of_lt_right {a b : Dbl R} (h : lt a b = true) : b ≠ nan := by
  intro e
  rw [e, lt_nan_right] at h
  exact absurd h (by decide)

end Dbl

/-! ## Score -/

namespace NaiveBayes

variable {R : Type} [LinearOrderedField R]

theorem Score_fold (log : R → R) (m : NaiveBayes) (cate : wstring) (sum_cate : Int)
    (words : Count) :
    ∀ acc : Dbl R × NaiveBayes, SameCounts m acc.2 →
      (words.foldl (Score.step log cate sum_cate) acc).1 = acc.1 +
          (words.map (fun w => Dbl.log log (Dbl.div ((tokenCount m cate w.1 : Int) + 1 : R)
            ((sum_cate : R) + (m.vocabularies_.length : R) * 1)))).sum ∧
        SameCounts m (words.foldl (Score.step log cate sum_cate) acc).2 := by
  induction words with
  | nil =>
    intro acc h
    exact ⟨(Dbl.add_zero_right acc.1).symm, h⟩
  | cons w rest ih =>
    intro acc h
    have h2 : SameCounts m (Score.step log cate sum_cate acc w).2 :=
      h.trans (SameCounts_InCategory acc.2 w.1 cate)
    obtain ⟨e1, e2⟩ := ih (Score.step log cate sum_cate acc w) h2
    rw [List.foldl_cons]
    refine ⟨?_, e2⟩
    rw [e1, List.map_cons, List.sum_cons, ← Dbl.add_assoc_dbl]
    congr 1
    have hv : (InCategory acc.2 w.1 cate).2.vocabularies_ = m.vocabularies_ := h.vocabularies
    have hc : (InCategory acc.2 w.1 cate).1 = tokenCount m cate w.1 := h.count cate w.1
    simp only [Score.step, hv, hc]

/-- The double `Score` returns, for an arbitrary `log`: the prior term and one term per entry
of `words`; the number of categories is taken after the read `category_[cate]`. -/
theorem Score_fst (log : R → R) (m : NaiveBayes) (words : Count) (cate : wstring)
    (sum_cate : Int) :
    (Score log m words cate sum_cate).1
      = Dbl.log log (Dbl.div ((UMap.value m.category_ cate 0 : Int) : R)
            ((UMap.alter m.category_ cate 0 id).length : R)) +
          (words.map (fun w => Dbl.log log (Dbl.div ((tokenCount m cate w.1 : Int) + 1 : R)
            ((sum_cate : R) + (m.vocabularies_.length : R) * 1)))).sum := by
  unfold Score
  simp only []
  exact (Score_fold log { m with category_ := UMap.alter m.category_ cate 0 id } cate sum_cate
    words (Dbl.log log (Dbl.div ((UMap.value m.category_ cate 0 : Int) : R)
      ((UMap.alter m.category_ cate 0 id).length : R)),
      { m with category_ := UMap.alter m.category_ cate 0 id }) (SameCounts.refl _)).1

/-- For a category that is a key of `category_`, `Score` changes the state at most by entries
with count 0. -/
theorem Score_snd (log : R → R) (m : NaiveBayes) (words : Count) {cate : wstring}
    (sum_cate : Int) (hc : cate ∈ UMap.keys m.category_) :
    SameCounts m (Score log m words cate sum_cate).2 := by
  unfold Score
  simp only []
  rw [UMap.alter_id_of_mem _ _ hc]
  exact (Score_fold log m cate sum_cate words _ (SameCounts.refl m)).2

/-- Score of category `c` as `Classifier` computes it: with the total of `SumCategory`. -/
theorem Score_congr (log : R → R) {m st : NaiveBayes} (h : SameCounts m st) (words : Count)
    (c : wstring) :
    (Score log (SumCategory st c).2 words c (SumCategory st c).1).1
      = (Score log (SumCategory m c).2 words c (SumCategory m c).1).1 := by
  have h1 := h.trans (SameCounts_SumCategory st c)
  have h2 := SameCounts_SumCategory m c
  rw [Score_fst, Score_fst, h.total c, h1.category, h2.category, h1.vocabularies,
    h2.vocabularies]
  simp only [h1.count, h2.count]

/-- With a category count of at least 1, token counts that are not negative and a positive
denominator (or no token), every term of `Score` is finite and the result is the number
`scoreValue`. -/
theorem Score_fst_fin (log : R → R) (m : NaiveBayes) (words : Count) (cate : wstring)
    (sum_cate : Int) (hk : 1 ≤ UMap.value m.category_ cate 0)
    (hc : ∀ w ∈ words, 0 ≤ tokenCount m cate w.1)
    (hd : words = [] ∨ 0 < sum_cate + (m.vocabularies_.length : Int)) :
    (Score log m words cate sum_cate).1 = Dbl.fin (scoreValue log m words cate sum_cate) := by
  have hmem : cate ∈ UMap.keys m.category_ := by
    by_contra hn
    rw [UMap.value_eq_zero_of_not_mem hn] at hk
    exact absurd hk (by decide)
  have hlen : 0 < m.category_.length := by
    cases hcat : m.category_ with
    | nil =>
      rw [hcat] at hmem
      exact absurd hmem (List.not_mem_nil _)
    | cons e rest => simp
  rw [Score_fst, UMap.alter_id_of_mem _ _ hmem]
  have hprior : Dbl.log log (Dbl.div ((UMap.value m.category_ cate 0 : Int) : R)
      (m.category_.length : R))
      = Dbl.fin (log (((UMap.value m.category_ cate 0 : Int) : R) / (m.category_.length : R))) :=
    Dbl.log_div_of_pos log (Int.cast_pos.mpr (by omega)) (Nat.cast_pos.mpr hlen)
  have hterms : words.map (fun w => Dbl.log log (Dbl.div ((tokenCount m cate w.1 : Int) + 1 : R)
        ((sum_cate : R) + (m.vocabularies_.length : R) * 1)))
      = words.map (fun w => (Dbl.fin (log (((tokenCount m cate w.1 : Int) + 1 : R)
        / ((sum_cate : R) + (m.vocabularies_.length : R)))) : Dbl R)) := by
    apply List.map_congr_left
    intro w hw
    rcases hd with hd | hd
    · rw [hd] at hw
      exact absurd hw (List.not_mem_nil _)
    · have h1 : (0 : R) < ((tokenCount m cate w.1 : Int) : R) + 1 := by
        have : (0 : R) ≤ ((tokenCount m cate w.1 : Int) : R) := Int.cast_nonneg.mpr (hc w hw)
        linarith
      have h2 : (0 : R) < (sum_cate : R) + (m.vocabularies_.length : R) := by
        have := (Int.cast_pos (R := R)).mpr hd
        push_cast at this
        exact this
      rw [mul_one, Dbl.log_div_of_pos log h1 h2]
  rw [hprior, hterms, Dbl.sum_map_fin, Dbl.fin_add_fin]
  rfl

/-- With a category count of at least 1, token counts that are not negative, a denominator 0
and at least one token, every term of the loop is `+inf`, and so is the result. -/
theorem Score_fst_pinf (log : R → R) (m : NaiveBayes) (words : Count) (cate : wstring)
    (sum_cate : Int) (hk : 1 ≤ UMap.value m.category_ cate 0)
    (hc : ∀ w ∈ words, 0 ≤ tokenCount m cate w.1)
    (hd : sum_cate + (m.vocabularies_.length : Int) = 0) (hw : words ≠ []) :
    (Score log m words cate sum_cate).1 = Dbl.pinf := by
  have hmem : cate ∈ UMap.keys m.category_ := by
    by_contra hn
    rw [UMap.value_eq_zero_of_not_mem hn] at hk
    exact absurd hk (by decide)
  have hlen : 0 < m.category_.length := by
    cases hcat : m.category_ with
    | nil =>
      rw [hcat] at hmem
      exact absurd hmem (List.not_mem_nil _)
    | cons e rest => simp
  rw [Score_fst, UMap.alter_id_of_mem _ _ hmem]
  have hprior : Dbl.log log (Dbl.div ((UMap.value m.category_ cate 0 : Int) : R)
      (m.category_.length : R))
      = Dbl.fin (log (((UMap.value m.category_ cate 0 : Int) : R) / (m.category_.length : R))) :=
    Dbl.log_div_of_pos log (Int.cast_pos.mpr (by omega)) (Nat.cast_pos.mpr hlen)
  have hterms : words.map (fun w => Dbl.log log (Dbl.div ((tokenCount m cate w.1 : Int) + 1 : R)
        ((sum_cate : R) + (m.vocabularies_.length : R) * 1)))
      = words.map (fun _ => (Dbl.pinf : Dbl R)) := by
    apply List.map_congr_left
    intro w hw
    have h1 : (0 : R) < ((tokenCount m cate w.1 : Int) : R) + 1 := by
      have : (0 : R) ≤ ((tokenCount m cate w.1 : Int) : R) := Int.cast_nonneg.mpr (hc w hw)
      linarith
    have h2 : (sum_cate : R) + (m.vocabularies_.length : R) * 1 = 0 := by
      have := congrArg (Int.cast (R := R)) hd
      push_cast at this
      rw [mul_one]
      exact this
    rw [h2, Dbl.log_div_zero log h1]
  rw [hprior, hterms, Dbl.sum_map_pinf words hw, Dbl.fin_add_pinf]

end NaiveBayes

/-! ## Classifier -/

namespace NaiveBayes

variable {R : Type} [LinearOrderedField R]

theorem Classifier_fold (log : R → R) (m : NaiveBayes) (words : Count) (cats : Count) :
    ∀ acc : wstring × Dbl R × NaiveBayes, SameCounts m acc.2.2 →
      (∀ e ∈ cats, e.1 ∈ UMap.keys m.category_) →
      ((cats.foldl (Classifier.step log words) acc).1,
          (cats.foldl (Classifier.step log words) acc).2.1)
        = cats.foldl (Classifier.pick
            (fun c => (Score log (SumCategory m c).2 words c (SumCategory m c).1).1))
            (acc.1, acc.2.1) ∧
        SameCounts m (cats.foldl (Classifier.step log words) acc).2.2 := by
  induction cats with
  | nil =>
    intro acc h _
    exact ⟨rfl, h⟩
  | cons e rest ih =>
    intro acc h hk
    have hs : SameCounts m (SumCategory acc.2.2 e.1).2 :=
      h.trans (SameCounts_SumCategory acc.2.2 e.1)
    have hmem : e.1 ∈ UMap.keys (SumCategory acc.2.2 e.1).2.category_ := by
      rw [hs.category]
      exact hk e (List.mem_cons_self _ _)
    have hst : SameCounts m (Classifier.step log words acc e).2.2 := by
      have := hs.trans (Score_snd log (SumCategory acc.2.2 e.1).2 words
        (SumCategory acc.2.2 e.1).1 hmem)
      unfold Classifier.step
      simp only []
      split_ifs <;> exact this
    have hv : ((Classifier.step log words acc e).1, (Classifier.step log words acc e).2.1)
        = Classifier.pick
            (fun c => (Score log (SumCategory m c).2 words c (SumCategory m c).1).1)
            (acc.1, acc.2.1) e := by
      unfold Classifier.step Classifier.pick
      simp only [Score_congr log h words e.1]
      split_ifs <;> rfl
    obtain ⟨e1, e2⟩ := ih (Classifier.step log words acc e) hst
      (fun x hx => hk x (List.mem_cons_of_mem _ hx))
    rw [List.foldl_cons, List.foldl_cons]
    refine ⟨?_, e2⟩
    rw [e1, hv]

/-- The loop `if (s > max) { max = s; best = cate; }` over a list whose scores are not NaN:
either nothing exceeded the initial maximum, or the result is the first entry with the
greatest score. -/
theorem Classifier_pick_fold (f : wstring → Dbl R) (cats : Count)
    (hnan : ∀ e ∈ cats, f e.1 ≠ Dbl.nan) :
    ∀ acc : wstring × Dbl R,
      (cats.foldl (Classifier.pick f) acc = acc ∧ ∀ e ∈ cats, Dbl.lt acc.2 (f e.1) = false) ∨
      ∃ l1 e l2, cats = l1 ++ e :: l2 ∧ cats.foldl (Classifier.pick f) acc = (e.1, f e.1) ∧
        Dbl.lt acc.2 (f e.1) = true ∧ (∀ x ∈ l1, Dbl.lt (f x.1) (f e.1) = true) ∧
        (∀ x ∈ l2, Dbl.lt (f e.1) (f x.1) = false) := by
  induction cats with
  | nil =>
    intro acc
    exact Or.inl ⟨rfl, fun e he => absurd he (List.not_mem_nil e)⟩
  | cons c rest ih =>
    intro acc
    have hrest : ∀ e ∈ rest, f e.1 ≠ Dbl.nan := fun e he => hnan e (List.mem_cons_of_mem _ he)
    rw [List.foldl_cons]
    cases hc : Dbl.lt acc.2 (f c.1) with
    | true =>
      have hp : Classifier.pick f acc c = (c.1, f c.1) := by
        unfold Classifier.pick
        rw [if_pos hc]
      rw [hp]
      rcases ih hrest (c.1, f c.1) with ⟨h1, h2⟩ | ⟨l1, e, l2, h1, h2, h3, h4, h5⟩
      · exact Or.inr ⟨[], c, rest, rfl, h1, hc, fun x hx => absurd hx (List.not_mem_nil x), h2⟩
      · refine Or.inr ⟨c :: l1, e, l2, by rw [h1]; rfl, h2, Dbl.lt_trans_dbl hc h3, ?_, h5⟩
        intro x hx
        rcases List.mem_cons.mp hx with hx | hx
        · rw [hx]
          exact h3
        · exact h4 x hx
    | false =>
      have hp : Classifier.pick f acc c = acc := by
        unfold Classifier.pick
        rw [if_neg (by rw [hc]; decide)]
      rw [hp]
      rcases ih hrest acc with ⟨h1, h2⟩ | ⟨l1, e, l2, h1, h2, h3, h4, h5⟩
      · refine Or.inl ⟨h1, ?_⟩
        intro x hx
        rcases List.mem_cons.mp hx with hx | hx
        · rw [hx]
          exact hc
        · exact h2 x hx
      · refine Or.inr ⟨c :: l1, e, l2, by rw [h1]; rfl, h2, h3, ?_, h5⟩
        intro x hx
        rcases List.mem_cons.mp hx with hx | hx
        · rw [hx]
          exact Dbl.lt_of_not_lt_of_lt (hnan c (List.mem_cons_self _ _)) hc h3
        · exact h4 x hx

theorem Classifier_fst (log : R → R) (m : NaiveBayes) (doc : wstring) :
    (Classifier log m doc).1
      = (m.category_.foldl (Classifier.pick (categoryScore log m doc))
          ([], Dbl.fin (-DBL_MAX))).1 := by
  have h := (Classifier_fold log m (SplitWords m doc) m.category_ ([], Dbl.fin (-DBL_MAX), m)
    (SameCounts.refl m) (fun _ he => List.mem_map_of_mem Prod.fst he)).1
  exact congrArg Prod.fst h

theorem Classifier_snd (log : R → R) (m : NaiveBayes) (doc : wstring) :
    SameCounts m (Classifier log m doc).2 :=
  (Classifier_fold log m (SplitWords m doc) m.category_ ([], Dbl.fin (-DBL_MAX), m)
    (SameCounts.refl m) (fun _ he => List.mem_map_of_mem Prod.fst he)).2

end NaiveBayes

/-! ## Further lemmas -/

namespace NaiveBayes

variable {R : Type} [LinearOrderedField R]

theorem DBL_MAX_pos : (0 : R) < DBL_MAX := by
  unfold DBL_MAX
  have h : (1 : R) < 2 ^ 53 := one_lt_pow₀ one_lt_two (by norm_num)
  have h2 : (0 : R) < 2 ^ 971 := pow_pos two_pos 971
  exact mul_pos (by linarith) h2

/-! ### Keys added by `Classifier` -/

theorem Score_fold_inserts (log : R → R) (cate : wstring) (sum_cate : Int) (t : wstring)
    (words : Count) :
    ∀ acc : Dbl R × NaiveBayes, t ∈ UMap.keys words →
      t ∈ UMap.keys (UMap.value
        (words.foldl (Score.step log cate sum_cate) acc).2.words_ cate []) := by
  induction words with
  | nil =>
    intro acc h
    exact absurd h (List.not_mem_nil t)
  | cons w rest ih =>
    intro acc h
    rw [List.foldl_cons]
    obtain ⟨a, v⟩ := w
    rw [UMap.keys_cons, List.mem_cons] at h
    by_cases hr : t ∈ UMap.keys rest
    · exact ih _ hr
    · have ht : t = a := by tauto
      subst ht
      have h0 : t ∈ UMap.keys (UMap.value
          (Score.step log cate sum_cate acc (t, v)).2.words_ cate []) := by
        simp only [Score.step, InCategory, UMap.value_alter_self, UMap.mem_keys_alter]
        exact Or.inr trivial
      exact (Score_fold log (Score.step log cate sum_cate acc (t, v)).2 cate sum_cate rest
        (Score.step log cate sum_cate acc (t, v)) (SameCounts.refl _)).2.toks cate t h0

theorem Score_inserts (log : R → R) (m : NaiveBayes) (words : Count) (cate : wstring)
    (sum_cate : Int) {t : wstring} (h : t ∈ UMap.keys words) :
    t ∈ UMap.keys (UMap.value (Score log m words cate sum_cate).2.words_ cate []) :=
  Score_fold_inserts log cate sum_cate t words _ h

theorem Classifier_fold_inserts (log : R → R) (words : Count) {c t : wstring}
    (ht : t ∈ UMap.keys words) (cats : Count) :
    ∀ acc : wstring × Dbl R × NaiveBayes, (∀ e ∈ cats, e.1 ∈ UMap.keys acc.2.2.category_) →
      c ∈ UMap.keys cats →
      t ∈ UMap.keys (UMap.value (cats.foldl (Classifier.step log words) acc).2.2.words_ c []) := by
  induction cats with
  | nil =>
    intro acc _ h
    exact absurd h (List.not_mem_nil c)
  | cons e rest ih =>
    intro acc hk hc
    rw [List.foldl_cons]
    have he : e.1 ∈ UMap.keys (SumCategory acc.2.2 e.1).2.category_ :=
      hk e (List.mem_cons_self _ _)
    have hstate : (Classifier.step log words acc e).2.2
        = (Score log (SumCategory acc.2.2 e.1).2 words e.1 (SumCategory acc.2.2 e.1).1).2 := by
      unfold Classifier.step
      simp only []
      split_ifs <;> rfl
    have hsame : SameCounts acc.2.2 (Classifier.step log words acc e).2.2 := by
      rw [hstate]
      exact (SameCounts_SumCategory acc.2.2 e.1).trans (Score_snd log _ words _ he)
    have hk2 : ∀ x ∈ rest, x.1 ∈ UMap.keys (Classifier.step log words acc e).2.2.category_ := by
      intro x hx
      rw [hsame.category]
      exact hk x (List.mem_cons_of_mem _ hx)
    by_cases hr : c ∈ UMap.keys rest
    · exact ih _ hk2 hr
    · have hce : c = e.1 := by
        obtain ⟨a, v⟩ := e
        rw [UMap.keys_cons, List.mem_cons] at hc
        tauto
      subst hce
      have h0 : t ∈ UMap.keys (UMap.value (Classifier.step log words acc e).2.2.words_ e.1 []) := by
        rw [hstate]
        exact Score_inserts log _ words e.1 _ ht
      exact (Classifier_fold log (Classifier.step log words acc e).2.2 words rest
        (Classifier.step log words acc e) (SameCounts.refl _) hk2).2.toks e.1 t h0

/-- After `Classifier(doc)` every token of `doc` is a key of the token table of every
category of `category_`. -/
theorem Classifier_inserts (log : R → R) (m : NaiveBayes) (doc : wstring) {c t : wstring}
    (hc : c ∈ UMap.keys m.category_) (ht : t ∈ UMap.keys (SplitWords m doc)) :
    t ∈ UMap.keys (UMap.value (Classifier log m doc).2.words_ c []) :=
  Classifier_fold_inserts log (SplitWords m doc) ht m.category_ ([], Dbl.fin (-DBL_MAX), m)
    (fun _ he => List.mem_map_of_mem Prod.fst he) hc

/-! ### Sequences of calls -/

theorem run_cons (log : R → R) (m : NaiveBayes) (call : Call) (calls : List Call) :
    run log m (call :: calls) = run log (exec log m call) calls := rfl

theorem SplitWords_congr {m m' : NaiveBayes} (h : m'.gram_ = m.gram_) (doc : wstring) :
    SplitWords m' doc = SplitWords m doc := by
  unfold SplitWords
  rw [h]

theorem tokenCount_Training (m : NaiveBayes) (doc cate c t : wstring) :
    tokenCount (Training m doc cate) c t
      = tokenCount m c t + (if c = cate then UMap.value (SplitWords m doc) t 0 else 0) := by
  by_cases h : c = cate
  · subst h
    rw [if_pos rfl, ← UMap.value_add_of_nodup t _ (SplitWords_nodup m doc)]
    exact tokenCount_Training_fold c t (SplitWords m doc) m
  · rw [if_neg h, add_zero]
    unfold tokenCount
    rw [Training_words]
    simp only [UMap.value, find_words_Training_fold cate h (SplitWords m doc) m]

theorem mem_keys_table_Training_fold (cate t : wstring) (words : Count) :
    ∀ m : NaiveBayes,
      t ∈ UMap.keys (UMap.value (words.foldl (Training.step cate) m).words_ cate []) ↔
        t ∈ UMap.keys (UMap.value m.words_ cate []) ∨ t ∈ UMap.keys words := by
  induction words with
  | nil => intro m; simp [UMap.keys_nil]
  | cons w rest ih =>
    intro m
    obtain ⟨a, v⟩ := w
    rw [List.foldl_cons, ih, UMap.keys_cons, List.mem_cons]
    simp only [Training.step, UMap.value_alter_self, UMap.mem_keys_alter]
    tauto

theorem mem_keys_table_Training (m : NaiveBayes) (doc cate c t : wstring) :
    t ∈ UMap.keys (UMap.value (Training m doc cate).words_ c []) ↔
      t ∈ UMap.keys (UMap.value m.words_ c []) ∨
        (c = cate ∧ t ∈ UMap.keys (SplitWords m doc)) := by
  rw [Training_words]
  by_cases h : c = cate
  · subst h
    rw [mem_keys_table_Training_fold]
    tauto
  · simp only [UMap.value, find_words_Training_fold cate h (SplitWords m doc) m]
    tauto

theorem mem_keys_vocabularies_Training (m : NaiveBayes) (doc cate t : wstring) :
    t ∈ UMap.keys (Training m doc cate).vocabularies_ ↔
      t ∈ UMap.keys m.vocabularies_ ∨ t ∈ UMap.keys (SplitWords m doc) := by
  rw [Training_vocabularies]
  exact mem_keys_vocabularies_Training_fold cate t _ m

/-- Every token with a count different from 0 is in the vocabulary: kept by every call. -/
theorem counted_in_vocabulary_exec (log : R → R) (m : NaiveBayes) (call : Call)
    (h : ∀ c t, tokenCount m c t ≠ 0 → t ∈ UMap.keys m.vocabularies_) :
    ∀ c t, tokenCount (exec log m call) c t ≠ 0 →
      t ∈ UMap.keys (exec log m call).vocabularies_ := by
  intro c t hne
  cases call with
  | Training doc cate =>
    simp only [exec] at hne ⊢
    rw [mem_keys_vocabularies_Training]
    rw [tokenCount_Training] at hne
    by_cases hin : t ∈ UMap.keys (SplitWords m doc)
    · exact Or.inr hin
    · left
      apply h c t
      rw [UMap.value_eq_zero_of_not_mem hin] at hne
      simpa using hne
  | Classifier doc =>
    simp only [exec] at hne ⊢
    have hs := Classifier_snd log m doc
    rw [hs.count] at hne
    rw [hs.vocabularies]
    exact h c t hne

theorem counted_in_vocabulary_run (log : R → R) (calls : List Call) :
    ∀ m : NaiveBayes, (∀ c t, tokenCount m c t ≠ 0 → t ∈ UMap.keys m.vocabularies_) →
      ∀ c t, tokenCount (run log m calls) c t ≠ 0 →
        t ∈ UMap.keys (run log m calls).vocabularies_ := by
  induction calls with
  | nil => intro m h; exact h
  | cons call rest ih =>
    intro m h
    rw [run_cons]
    exact ih _ (counted_in_vocabulary_exec log m call h)

theorem keys_in_vocabulary_trained (log : R → R) (docs : List (wstring × wstring)) :
    ∀ m : NaiveBayes,
      (∀ c t, t ∈ UMap.keys (UMap.value m.words_ c []) → t ∈ UMap.keys m.vocabularies_) →
      ∀ c t, t ∈ UMap.keys (UMap.value (run log m (trainingCalls docs)).words_ c []) →
        t ∈ UMap.keys (run log m (trainingCalls docs)).vocabularies_ := by
  induction docs with
  | nil => intro m h; exact h
  | cons p rest ih =>
    intro m h
    apply ih (Training m p.1 p.2)
    intro c t ht
    rw [mem_keys_table_Training] at ht
    rw [mem_keys_vocabularies_Training]
    rcases ht with ht | ⟨_, ht⟩
    · exact Or.inl (h c t ht)
    · exact Or.inr ht

theorem category_keys_trained (log : R → R) (docs : List (wstring × wstring)) :
    ∀ m : NaiveBayes,
      (run log m (trainingCalls docs)).gram_ = m.gram_ ∧
      (∀ c, c ∈ UMap.keys (run log m (trainingCalls docs)).category_ ↔
        c ∈ UMap.keys m.category_ ∨ ∃ p ∈ docs, p.2 = c) ∧
      (∀ c, c ∈ UMap.keys (run log m (trainingCalls docs)).words_ ↔
        c ∈ UMap.keys m.words_ ∨ ∃ p ∈ docs, p.2 = c ∧ SplitWords m p.1 ≠ []) := by
  induction docs with
  | nil =>
    intro m
    simp [trainingCalls, run]
  | cons p rest ih =>
    intro m
    obtain ⟨g, hc, hw⟩ := ih (Training m p.1 p.2)
    have hg : (Training m p.1 p.2).gram_ = m.gram_ := Training_gram m p.1 p.2
    have e : run log m (trainingCalls (p :: rest))
        = run log (Training m p.1 p.2) (trainingCalls rest) := rfl
    rw [e]
    refine ⟨g.trans hg, ?_, ?_⟩
    · intro c
      rw [hc, Training_category, UMap.mem_keys_alter]
      simp only [List.mem_cons, exists_eq_or_imp]
      constructor
      · rintro ((h | h) | h)
        · exact Or.inl h
        · exact Or.inr (Or.inl h.symm)
        · exact Or.inr (Or.inr h)
      · rintro (h | h | h)
        · exact Or.inl (Or.inl h)
        · exact Or.inl (Or.inr h.symm)
        · exact Or.inr h
    · intro c
      rw [hw, Training_words, mem_keys_words_Training_fold]
      simp only [List.mem_cons, exists_eq_or_imp, SplitWords_congr hg]
      constructor
      · rintro ((h | ⟨h1, h2⟩) | h)
        · exact Or.inl h
        · exact Or.inr (Or.inl ⟨h1.symm, h2⟩)
        · exact Or.inr (Or.inr h)
      · rintro (h | ⟨h1, h2⟩ | h)
        · exact Or.inl (Or.inl h)
        · exact Or.inl (Or.inr ⟨h1.symm, h2⟩)
        · exact Or.inr h

/-! ### Widths that are not positive -/

theorem SplitWords_loop_zero (doc : wstring) :
    ∀ (fuel i : Nat) (k : Int), i + fuel = doc.length + 1 →
      SplitWords.loop 0 doc fuel i [([], k)] = [([], k + fuel)] := by
  intro fuel
  induction fuel with
  | zero =>
    intro i k _
    simp [SplitWords.loop]
  | succ fuel ih =>
    intro i k h
    have hc : i + 0 ≤ doc.length := by omega
    simp only [SplitWords.loop, if_pos hc]
    have hs : substr doc i 0 = [] := by simp [substr]
    rw [hs, UMap.alter_cons_self, ih (i + 1) (k + 1) (by omega)]
    push_cast
    rw [add_assoc, add_comm 1]

theorem SplitWords_zero (m : NaiveBayes) (doc : wstring) (h : m.gram_ = 0) :
    SplitWords m doc = [([], (doc.length : Int) + 1)] := by
  unfold SplitWords
  have hg : size_t m.gram_ = 0 := by rw [h]; rfl
  rw [hg]
  have hc : 0 + 0 ≤ doc.length := Nat.zero_le _
  have hs : substr doc 0 0 = [] := by simp [substr]
  simp only [SplitWords.loop, if_pos hc, hs, UMap.alter_nil]
  rw [SplitWords_loop_zero doc doc.length 1 (0 + 1) (by omega)]
  rw [zero_add, add_comm]

theorem SplitWords_neg (m : NaiveBayes) (doc : wstring) (h0 : m.gram_ < 0)
    (h1 : INT_MIN ≤ m.gram_) (h2 : doc.length < 2 ^ 64 - 2 ^ 31) :
    SplitWords m doc = [] := by
  unfold SplitWords
  unfold INT_MIN at h1
  have hg : 2 ^ 64 - 2 ^ 31 ≤ size_t m.gram_ := by
    unfold size_t
    have e : m.gram_ % 2 ^ 64 = m.gram_ + 2 ^ 64 := by
      rw [← Int.add_emod_self]
      exact Int.emod_eq_of_lt (by omega) (by omega)
    rw [e]
    omega
  have hc : ¬ (0 + size_t m.gram_ ≤ doc.length) := by omega
  simp only [SplitWords.loop, if_neg hc]

/-! ### Totals -/

theorem foldl_count_init (tbl : Count) :
    ∀ a : Int, tbl.foldl (fun sum w => sum + w.2) a = a + totalCount tbl := by
  unfold totalCount
  induction tbl with
  | nil => intro a; simp
  | cons e rest ih =>
    intro a
    rw [List.foldl_cons, List.foldl_cons, ih (a + e.2), ih (0 + e.2)]
    ring

theorem totalCount_nil : totalCount [] = 0 := rfl

theorem totalCount_cons (e : wstring × Int) (rest : Count) :
    totalCount (e :: rest) = e.2 + totalCount rest := by
  unfold totalCount
  rw [List.foldl_cons, foldl_count_init]
  unfold totalCount
  ring

theorem totalCount_alter_add (w : wstring) (k : Int) (tbl : Count) :
    totalCount (UMap.alter tbl w 0 (· + k)) = totalCount tbl + k := by
  induction tbl with
  | nil => simp [UMap.alter_nil, totalCount_cons, totalCount_nil]
  | cons e rest ih =>
    obtain ⟨a, v⟩ := e
    by_cases h : a = w
    · subst h
      rw [UMap.alter_cons_self, totalCount_cons, totalCount_cons]
      simp only []
      ring
    · rw [UMap.alter_cons_ne _ _ _ _ h, totalCount_cons, totalCount_cons, ih]
      ring

theorem SumCategory_fst (m : NaiveBayes) (c : wstring) :
    (SumCategory m c).1 = totalCount (UMap.value m.words_ c []) := rfl

theorem SplitWords_loop_total (g : Nat) (doc : wstring) :
    ∀ (fuel i : Nat) (ret : Count), i + fuel = doc.length + 1 →
      totalCount (SplitWords.loop g doc fuel i ret)
        = totalCount ret + ((doc.length + 1 - (i + g) : Nat) : Int) := by
  intro fuel
  induction fuel with
  | zero =>
    intro i ret h
    have : doc.length + 1 - (i + g) = 0 := by omega
    simp [SplitWords.loop, this]
  | succ fuel ih =>
    intro i ret h
    simp only [SplitWords.loop]
    by_cases hc : i + g ≤ doc.length
    · rw [if_pos hc, ih (i + 1) _ (by omega), totalCount_alter_add]
      have : doc.length + 1 - (i + g) = (doc.length + 1 - (i + 1 + g)) + 1 := by omega
      rw [this]
      push_cast
      ring
    · rw [if_neg hc]
      have : doc.length + 1 - (i + g) = 0 := by omega
      simp [this]

/-- The counts of `SplitWords(doc)` sum to the number of windows. -/
theorem totalCount_SplitWords (m : NaiveBayes) (doc : wstring) :
    totalCount (SplitWords m doc) = ((doc.length + 1 - size_t m.gram_ : Nat) : Int) := by
  unfold SplitWords
  rw [SplitWords_loop_total _ _ _ _ _ (by omega), totalCount_nil]
  simp

theorem length_substr (doc : wstring) (i g : Nat) (h : i + g ≤ doc.length) :
    (substr doc i g).length = g := by
  unfold substr
  rw [List.length_take, List.length_drop]
  omega

theorem SplitWords_eq_nil_iff (m : NaiveBayes) (doc : wstring) :
    SplitWords m doc = [] ↔ doc.length < size_t m.gram_ := by
  constructor
  · intro h
    by_contra hlt
    have hmem : substr doc 0 (size_t m.gram_) ∈ UMap.keys (SplitWords m doc) :=
      (mem_keys_SplitWords m doc _).mpr ⟨0, by omega, rfl⟩
    rw [h] at hmem
    exact absurd hmem (List.not_mem_nil _)
  · intro hlt
    cases hsw : SplitWords m doc with
    | nil => rfl
    | cons e rest =>
      exfalso
      have hmem : e.1 ∈ UMap.keys (SplitWords m doc) := by
        rw [hsw]
        exact List.mem_map_of_mem Prod.fst (List.mem_cons_self _ _)
      obtain ⟨i, hi, _⟩ := (mem_keys_SplitWords m doc e.1).mp hmem
      omega

theorem totalCount_table_Training_fold (cate : wstring) (words : Count) :
    ∀ m : NaiveBayes,
      totalCount (UMap.value (words.foldl (Training.step cate) m).words_ cate [])
        = totalCount (UMap.value m.words_ cate []) + totalCount words := by
  induction words with
  | nil => intro m; simp [totalCount_nil]
  | cons w rest ih =>
    intro m
    rw [List.foldl_cons, ih, totalCount_cons]
    simp only [Training.step, UMap.value_alter_self, totalCount_alter_add]
    ring

theorem SumCategory_Training (m : NaiveBayes) (doc cate c : wstring) :
    (SumCategory (Training m doc cate) c).1
      = (SumCategory m c).1 + (if c = cate then totalCount (SplitWords m doc) else 0) := by
  rw [SumCategory_fst, SumCategory_fst, Training_words]
  by_cases h : c = cate
  · subst h
    rw [if_pos rfl, totalCount_table_Training_fold]
  · rw [if_neg h, add_zero]
    simp only [UMap.value, find_words_Training_fold cate h (SplitWords m doc) m]

/-! ### Invariants of sequences of calls -/

theorem exec_gram (log : R → R) (m : NaiveBayes) (call : Call) :
    (exec log m call).gram_ = m.gram_ := by
  cases call with
  | Training doc cate => exact Training_gram m doc cate
  | Classifier doc => exact (Classifier_snd log m doc).gram

theorem run_gram (log : R → R) (calls : List Call) :
    ∀ m : NaiveBayes, (run log m calls).gram_ = m.gram_ := by
  induction calls with
  | nil => intro m; rfl
  | cons call rest ih =>
    intro m
    rw [run_cons, ih, exec_gram]

theorem SumCategory_exec (log : R → R) (m : NaiveBayes) (call : Call) (c : wstring) :
    (SumCategory (exec log m call) c).1
      = (SumCategory m c).1 + (instancesOf (size_t m.gram_) c call : Int) := by
  cases call with
  | Training doc cate =>
    simp only [exec, instancesOf]
    rw [SumCategory_Training, totalCount_SplitWords]
    by_cases h : c = cate
    · subst h
      rw [if_pos rfl]
      by_cases hl : size_t m.gram_ ≤ doc.length
      · rw [if_pos ⟨rfl, hl⟩]
        congr 2
        omega
      · have hn : ¬ (c = c ∧ size_t m.gram_ ≤ doc.length) := fun hh => hl hh.2
        rw [if_neg hn]
        congr 2
        omega
    · have hn : ¬ (cate = c ∧ size_t m.gram_ ≤ doc.length) := fun hh => h hh.1.symm
      rw [if_neg h, if_neg hn]
      rfl
  | Classifier doc =>
    simp only [exec, instancesOf]
    rw [(Classifier_snd log m doc).total]
    simp

theorem SumCategory_run (log : R → R) (c : wstring) (calls : List Call) :
    ∀ m : NaiveBayes, (SumCategory (run log m calls) c).1
      = (SumCategory m c).1 + (trainedInstances (size_t m.gram_) c calls : Int) := by
  induction calls with
  | nil => intro m; simp [run, trainedInstances]
  | cons call rest ih =>
    intro m
    rw [run_cons, ih, SumCategory_exec, exec_gram]
    simp only [trainedInstances, List.map_cons, List.sum_cons]
    push_cast
    ring

theorem tokenCount_nonneg_exec (log : R → R) (m : NaiveBayes) (call : Call)
    (h : ∀ c t, 0 ≤ tokenCount m c t) : ∀ c t, 0 ≤ tokenCount (exec log m call) c t := by
  intro c t
  cases call with
  | Training doc cate =>
    simp only [exec]
    rw [tokenCount_Training]
    by_cases hc : c = cate
    · rw [if_pos hc, SplitWords_value]
      have := h c t
      positivity
    · rw [if_neg hc, add_zero]
      exact h c t
  | Classifier doc =>
    simp only [exec]
    rw [(Classifier_snd log m doc).count]
    exact h c t

theorem tokenCount_nonneg_run (log : R → R) (calls : List Call) :
    ∀ m : NaiveBayes, (∀ c t, 0 ≤ tokenCount m c t) →
      ∀ c t, 0 ≤ tokenCount (run log m calls) c t := by
  induction calls with
  | nil => intro m h; exact h
  | cons call rest ih =>
    intro m h
    rw [run_cons]
    exact ih _ (tokenCount_nonneg_exec log m call h)

theorem tokenCount_ctor (n : Int) (c t : wstring) : tokenCount (ctor n) c t = 0 := rfl

theorem eq_nil_iff_keys {V : Type} (l : UMap V) : l = [] ↔ ∀ t, t ∉ UMap.keys l := by
  cases l with
  | nil => simp [UMap.keys_nil]
  | cons e rest =>
    constructor
    · intro h
      exact absurd h (List.cons_ne_nil _ _)
    · intro h
      exact absurd (List.mem_map_of_mem Prod.fst (List.mem_cons_self e rest)) (h e.1)

theorem vocabularies_Training_eq_nil (m : NaiveBayes) (doc cate : wstring) :
    (Training m doc cate).vocabularies_ = [] ↔
      m.vocabularies_ = [] ∧ SplitWords m doc = [] := by
  rw [eq_nil_iff_keys, eq_nil_iff_keys, eq_nil_iff_keys]
  simp only [mem_keys_vocabularies_Training, not_or]
  constructor
  · intro h
    exact ⟨fun t => (h t).1, fun t => (h t).2⟩
  · intro h t
    exact ⟨h.1 t, h.2 t⟩

/-- The vocabulary is empty exactly when no `Training` call had a document with a token. -/
theorem vocabularies_run_eq_nil (log : R → R) (calls : List Call) :
    ∀ m : NaiveBayes, (run log m calls).vocabularies_ = [] ↔
      m.vocabularies_ = [] ∧
        ∀ doc cate, Call.Training doc cate ∈ calls → SplitWords m doc = [] := by
  induction calls with
  | nil =>
    intro m
    simp [run]
  | cons call rest ih =>
    intro m
    rw [run_cons, ih]
    have hg : (exec log m call).gram_ = m.gram_ := exec_gram log m call
    simp only [SplitWords_congr hg, List.mem_cons]
    cases call with
    | Training d k =>
      simp only [exec]
      rw [vocabularies_Training_eq_nil]
      constructor
      · rintro ⟨⟨h1, h2⟩, h3⟩
        refine ⟨h1, ?_⟩
        intro doc cate hmem
        rcases hmem with hmem | hmem
        · injection hmem with e1 e2
          rw [e1]
          exact h2
        · exact h3 doc cate hmem
      · rintro ⟨h1, h2⟩
        exact ⟨⟨h1, h2 d k (Or.inl rfl)⟩, fun doc cate hmem => h2 doc cate (Or.inr hmem)⟩
    | Classifier d =>
      simp only [exec]
      rw [(Classifier_snd log m d).vocabularies]
      constructor
      · rintro ⟨h1, h3⟩
        refine ⟨h1, ?_⟩
        intro doc cate hmem
        rcases hmem with hmem | hmem
        · exact absurd hmem (by simp)
        · exact h3 doc cate hmem
      · rintro ⟨h1, h2⟩
        exact ⟨h1, fun doc cate hmem => h2 doc cate (Or.inr hmem)⟩

theorem trainedInstances_eq_zero (g : Nat) (c : wstring) (calls : List Call)
    (h : ∀ doc cate, Call.Training doc cate ∈ calls → doc.length < g) :
    trainedInstances g c calls = 0 := by
  unfold trainedInstances
  rw [List.sum_eq_zero]
  intro x hx
  obtain ⟨call, hcall, rfl⟩ := List.mem_map.mp hx
  cases call with
  | Training doc cate =>
    have := h doc cate hcall
    have hn : ¬ (cate = c ∧ g ≤ doc.length) := fun hh => by omega
    simp only [instancesOf, if_neg hn]
  | Classifier doc => rfl

/-! ### Repeated classification, vocabulary size -/

theorem categoryScore_congr (log : R → R) {m st : NaiveBayes} (h : SameCounts m st)
    (doc c : wstring) : categoryScore log st doc c = categoryScore log m doc c := by
  unfold categoryScore
  rw [SplitWords_congr h.gram]
  exact Score_congr log h (SplitWords m doc) c

theorem Classifier_congr (log : R → R) {m st : NaiveBayes} (h : SameCounts m st)
    (doc : wstring) : (Classifier log st doc).1 = (Classifier log m doc).1 := by
  rw [Classifier_fst, Classifier_fst, h.category]
  have e : categoryScore log st doc = categoryScore log m doc := by
    funext c
    exact categoryScore_congr log h doc c
  rw [e]

theorem SameCounts_run_Classifier (log : R → R) (docs : List wstring) :
    ∀ m : NaiveBayes, SameCounts m (run log m (docs.map Call.Classifier)) := by
  induction docs with
  | nil => intro m; exact SameCounts.refl m
  | cons d rest ih =>
    intro m
    exact (Classifier_snd log m d).trans (ih _)

theorem length_le_alter {V : Type} (l : UMap V) (k : wstring) (d : V) (f : V → V) :
    l.length ≤ (UMap.alter l k d f).length := by
  induction l with
  | nil => simp
  | cons e rest ih =>
    obtain ⟨a, v⟩ := e
    by_cases h : a = k
    · subst h
      rw [UMap.alter_cons_self]
      simp
    · rw [UMap.alter_cons_ne _ _ _ _ h]
      simpa using ih

theorem length_alter_le {V : Type} (l : UMap V) (k : wstring) (d : V) (f : V → V) :
    (UMap.alter l k d f).length ≤ l.length + 1 := by
  induction l with
  | nil => simp [UMap.alter_nil]
  | cons e rest ih =>
    obtain ⟨a, v⟩ := e
    by_cases h : a = k
    · subst h
      rw [UMap.alter_cons_self]
      simp
    · rw [UMap.alter_cons_ne _ _ _ _ h]
      simpa using ih

theorem length_vocabularies_Training_fold (cate : wstring) (words : Count) :
    ∀ m : NaiveBayes,
      m.vocabularies_.length ≤ (words.foldl (Training.step cate) m).vocabularies_.length := by
  induction words with
  | nil => intro m; exact le_refl _
  | cons w rest ih =>
    intro m
    rw [List.foldl_cons]
    have h1 : m.vocabularies_.length ≤ (Training.step cate m w).vocabularies_.length :=
      length_le_alter _ _ _ _
    exact le_trans h1 (ih (Training.step cate m w))

theorem SplitWords_loop_length (g : Nat) (doc : wstring) :
    ∀ (fuel i : Nat) (ret : Count),
      (SplitWords.loop g doc fuel i ret).length ≤ ret.length + fuel := by
  intro fuel
  induction fuel with
  | zero => intro i ret; simp [SplitWords.loop]
  | succ fuel ih =>
    intro i ret
    simp only [SplitWords.loop]
    by_cases hc : i + g ≤ doc.length
    · rw [if_pos hc]
      have h1 := ih (i + 1) (UMap.alter ret (substr doc i g) 0 (· + 1))
      have h2 := length_alter_le ret (substr doc i g) 0 (· + 1)
      omega
    · rw [if_neg hc]
      omega

theorem length_SplitWords_le (m : NaiveBayes) (doc : wstring) :
    (SplitWords m doc).length ≤ doc.length + 1 := by
  have := SplitWords_loop_length (size_t m.gram_) doc (doc.length + 1) 0 []
  simpa [SplitWords] using this

/-! ### Evaluating `Classifier` -/

/-- The score `Classifier` computes, written with the counts of the state at the call. -/
theorem categoryScore_eq (log : R → R) (m : NaiveBayes) (doc c : wstring) :
    categoryScore log m doc c
      = Dbl.log log (Dbl.div ((UMap.value m.category_ c 0 : Int) : R)
            ((UMap.alter m.category_ c 0 id).length : R)) +
          ((SplitWords m doc).map (fun w => Dbl.log log
            (Dbl.div ((tokenCount m c w.1 : Int) + 1 : R)
              (((SumCategory m c).1 : R) + (m.vocabularies_.length : R) * 1)))).sum := by
  unfold categoryScore
  rw [Score_fst]
  have h := SameCounts_SumCategory m c
  simp only [h.count, h.category, h.vocabularies]

theorem scoreValue_SumCategory (log : R → R) (m : NaiveBayes) (words : Count) (c : wstring)
    (s : Int) :
    scoreValue log (SumCategory m c).2 words c s = scoreValue log m words c s := by
  have h := SameCounts_SumCategory m c
  unfold scoreValue
  simp only [h.count, h.category, h.vocabularies]

/-- The score of a category is the number `scoreValue` when its count is at least 1, the
counts of the tokens of the document are not negative and the denominator is positive or
the document has no token. -/
theorem categoryScore_fin (log : R → R) (m : NaiveBayes) (doc c : wstring)
    (hk : 1 ≤ UMap.value m.category_ c 0)
    (hc : ∀ w ∈ SplitWords m doc, 0 ≤ tokenCount m c w.1)
    (hd : SplitWords m doc = [] ∨
      0 < (SumCategory m c).1 + (m.vocabularies_.length : Int)) :
    categoryScore log m doc c
      = Dbl.fin (scoreValue log m (SplitWords m doc) c (SumCategory m c).1) := by
  have h := SameCounts_SumCategory m c
  unfold categoryScore
  rw [Score_fst_fin log (SumCategory m c).2 (SplitWords m doc) c (SumCategory m c).1
    (by rw [h.category]; exact hk) (by intro w hw; rw [h.count]; exact hc w hw)
    (by rw [h.vocabularies]; exact hd), scoreValue_SumCategory]

/-- The score of a category is `+inf` when the denominator is 0 and the document has a
token. -/
theorem categoryScore_pinf (log : R → R) (m : NaiveBayes) (doc c : wstring)
    (hk : 1 ≤ UMap.value m.category_ c 0)
    (hc : ∀ w ∈ SplitWords m doc, 0 ≤ tokenCount m c w.1)
    (hd : (SumCategory m c).1 + (m.vocabularies_.length : Int) = 0)
    (hw : SplitWords m doc ≠ []) :
    categoryScore log m doc c = Dbl.pinf := by
  have h := SameCounts_SumCategory m c
  unfold categoryScore
  exact Score_fst_pinf log (SumCategory m c).2 (SplitWords m doc) c (SumCategory m c).1
    (by rw [h.category]; exact hk) (by intro w hw; rw [h.count]; exact hc w hw)
    (by rw [h.vocabularies]; exact hd) hw

/-- A category whose score exceeds `-DBL_MAX` and the score of every other category is the
one `Classifier` returns, in every iteration order. -/
theorem Classifier_of_greatest (log : R → R) (m : NaiveBayes) (doc : wstring) {w : wstring}
    (hw : w ∈ UMap.keys m.category_)
    (hmax : Dbl.lt (Dbl.fin (-DBL_MAX)) (categoryScore log m doc w) = true)
    (hlt : ∀ x ∈ UMap.keys m.category_, x ≠ w →
      Dbl.lt (categoryScore log m doc x) (categoryScore log m doc w) = true) :
    (Classifier log m doc).1 = w := by
  rw [Classifier_fst]
  have hnan : ∀ e ∈ m.category_, categoryScore log m doc e.1 ≠ Dbl.nan := by
    intro e he
    by_cases hew : e.1 = w
    · rw [hew]
      exact Dbl.ne_nan_of_lt_right hmax
    · exact Dbl.ne_nan_of_lt_left (hlt e.1 (List.mem_map_of_mem Prod.fst he) hew)
  obtain ⟨e0, he0, rfl⟩ := List.mem_map.mp hw
  rcases Classifier_pick_fold (categoryScore log m doc) m.category_ hnan
      ([], Dbl.fin (-DBL_MAX)) with ⟨_, h2⟩ | ⟨l1, e, l2, h1, h2, _, h4, h5⟩
  · have := h2 e0 he0
    rw [hmax] at this
    exact absurd this (by decide)
  · rw [h2]
    by_contra hne
    have hemem : e.1 ∈ UMap.keys m.category_ := by
      rw [h1]
      exact List.mem_map_of_mem Prod.fst (List.mem_append_right _ (List.mem_cons_self _ _))
    have hlt2 := hlt e.1 hemem hne
    rw [h1] at he0
    rcases List.mem_append.mp he0 with hx | hx
    · have h3 := Dbl.lt_trans_dbl (h4 e0 hx) hlt2
      rw [Dbl.lt_self] at h3
      exact absurd h3 (by decide)
    · rcases List.mem_cons.mp hx with hx | hx
      · exact hne (by rw [hx])
      · have h3 := h5 e0 hx
        rw [hlt2] at h3
        exact absurd h3 (by decide)

theorem two_pow_le_DBL_MAX : (2 : R) ^ 971 ≤ DBL_MAX := by
  unfold DBL_MAX
  have h : (2 : R) ≤ 2 ^ 53 := by
    calc (2 : R) = 2 ^ 1 := (pow_one 2).symm
      _ ≤ 2 ^ 53 := pow_le_pow_right₀ one_le_two (by norm_num)
  have h2 : (0 : R) < 2 ^ 971 := pow_pos two_pos 971
  nlinarith

/-! ### A lower bound of the score -/

theorem neg_le_log_ratio (a d : Int) (ha : 0 ≤ a) (hd : 0 ≤ d) :
    -(d : ℝ) ≤ Real.log (((a : Int) + 1 : ℝ) / (d : ℝ)) := by
  rcases eq_or_lt_of_le hd with h0 | hpos
  · rw [← h0]
    simp
  · have hd1 : (1 : ℝ) ≤ (d : ℝ) := by exact_mod_cast hpos
    have ha0 : (0 : ℝ) ≤ (a : ℝ) := by exact_mod_cast ha
    have hx : (0 : ℝ) < ((a : ℝ) + 1) / (d : ℝ) := div_pos (by linarith) (by linarith)
    have h1 := Real.one_sub_inv_le_log_of_pos hx
    have h2 : (((a : ℝ) + 1) / (d : ℝ))⁻¹ ≤ (d : ℝ) := by
      rw [inv_div]
      rw [div_le_iff₀ (by linarith)]
      nlinarith
    linarith

theorem sum_map_ge (f : wstring × Int → ℝ) (b : ℝ) (words : Count)
    (h : ∀ w ∈ words, -b ≤ f w) : -((words.length : ℝ) * b) ≤ (words.map f).sum := by
  induction words with
  | nil => simp
  | cons w rest ih =>
    have h1 := h w (List.mem_cons_self _ _)
    have h2 := ih (fun x hx => h x (List.mem_cons_of_mem _ hx))
    simp only [List.map_cons, List.sum_cons, List.length_cons]
    push_cast
    linarith

/-- With counts that are not negative and a category count of at least 1, the number
`scoreValue` is at least `-(number of categories) - (number of tokens) * (sum_cate +
|Vocabulary|)`. -/
theorem scoreValue_lower_bound (m : NaiveBayes) (words : Count) (c : wstring) (s : Int)
    (hc : ∀ w ∈ words, 0 ≤ tokenCount m c w.1)
    (hs : 0 ≤ s + (m.vocabularies_.length : Int))
    (hk : 1 ≤ UMap.value m.category_ c 0) :
    -((m.category_.length : ℝ)
        + (words.length : ℝ) * (((s + (m.vocabularies_.length : Int) : Int)) : ℝ))
      ≤ scoreValue Real.log m words c s := by
  unfold scoreValue
  have hprior : -(m.category_.length : ℝ)
      ≤ Real.log (((UMap.value m.category_ c 0 : Int) : ℝ) / (m.category_.length : ℝ)) := by
    have := neg_le_log_ratio (UMap.value m.category_ c 0 - 1) (m.category_.length : Int)
      (by omega) (Int.natCast_nonneg _)
    push_cast at this
    simpa using this
  have hterms := sum_map_ge
    (fun w => Real.log (((tokenCount m c w.1 : Int) + 1 : ℝ)
      / ((s : ℝ) + (m.vocabularies_.length : ℝ))))
    (((s + (m.vocabularies_.length : Int) : Int)) : ℝ) words
    (by
      intro w hw
      have := neg_le_log_ratio (tokenCount m c w.1)
        (s + (m.vocabularies_.length : Int)) (hc w hw) hs
      push_cast at this ⊢
      exact this)
  linarith

theorem dbl_lt_fin_of_ge {x b : ℝ} (h : -b ≤ x) (hb : b < 2 ^ 971) :
    Dbl.lt (Dbl.fin (-DBL_MAX)) (Dbl.fin x) = true := by
  rw [Dbl.lt_fin_fin]
  have hmax : (2 : ℝ) ^ 971 ≤ DBL_MAX := two_pow_le_DBL_MAX
  linarith

/-- In a state whose counts are within the ranges of their C++ types, the score of a
category with a count of at least 1 is `+inf` or a number above `-DBL_MAX`; either way it
passes the first test `s > max` of `Classifier`. -/
theorem categoryScore_gt_sentinel (m : NaiveBayes) (doc c : wstring)
    (hk : 1 ≤ UMap.value m.category_ c 0)
    (hc : ∀ w ∈ SplitWords m doc, 0 ≤ tokenCount m c w.1)
    (hs : 0 ≤ (SumCategory m c).1) (hL : doc.length < 2 ^ 64)
    (hS : (SumCategory m c).1 ≤ INT_MAX) (hV : m.vocabularies_.length < 2 ^ 64)
    (hN : m.category_.length < 2 ^ 64) :
    Dbl.lt (Dbl.fin (-DBL_MAX)) (categoryScore Real.log m doc c) = true := by
  have hD0 : 0 ≤ (SumCategory m c).1 + (m.vocabularies_.length : Int) :=
    add_nonneg hs (Int.natCast_nonneg _)
  by_cases hcase : SplitWords m doc = [] ∨
      0 < (SumCategory m c).1 + (m.vocabularies_.length : Int)
  · rw [categoryScore_fin Real.log m doc c hk hc hcase]
    have hlb := scoreValue_lower_bound m (SplitWords m doc) c (SumCategory m c).1 hc hD0 hk
    have hlen : ((SplitWords m doc).length : ℝ) ≤ 2 ^ 64 := by
      have := length_SplitWords_le m doc
      have h2 : (SplitWords m doc).length ≤ 2 ^ 64 := by omega
      exact_mod_cast h2
    have hD : ((((SumCategory m c).1 + (m.vocabularies_.length : Int) : Int)) : ℝ) ≤ 2 ^ 65 := by
      unfold INT_MAX at hS
      have h2 : (SumCategory m c).1 + (m.vocabularies_.length : Int) ≤ 2 ^ 65 := by omega
      exact_mod_cast h2
    have hD0r : (0 : ℝ) ≤ ((((SumCategory m c).1 + (m.vocabularies_.length : Int) : Int)) : ℝ) := by
      exact_mod_cast hD0
    have hNr : (m.category_.length : ℝ) ≤ 2 ^ 64 := by
      have h2 : m.category_.length ≤ 2 ^ 64 := by omega
      exact_mod_cast h2
    have hprod : ((SplitWords m doc).length : ℝ)
        * ((((SumCategory m c).1 + (m.vocabularies_.length : Int) : Int)) : ℝ)
          ≤ 2 ^ 64 * 2 ^ 65 := mul_le_mul hlen hD hD0r (by positivity)
    have hbig : (2 : ℝ) ^ 64 + 2 ^ 64 * 2 ^ 65 < 2 ^ 971 := by norm_num
    exact dbl_lt_fin_of_ge hlb (by linarith)
  · have hw : SplitWords m doc ≠ [] := fun e => hcase (Or.inl e)
    have hd : (SumCategory m c).1 + (m.vocabularies_.length : Int) = 0 := by
      have : ¬ 0 < (SumCategory m c).1 + (m.vocabularies_.length : Int) :=
        fun e => hcase (Or.inr e)
      omega
    rw [categoryScore_pinf Real.log m doc c hk hc hd hw]
    rfl

/-! ### Models trained on one category -/

theorem exec_category (log : R → R) (m : NaiveBayes) (call : Call) :
    (exec log m call).category_
      = match call with
        | .Training _ cate => UMap.alter m.category_ cate 0 (· + 1)
        | .Classifier _ => m.category_ := by
  cases call with
  | Training doc cate => exact Training_category m doc cate
  | Classifier doc => exact (Classifier_snd log m doc).category

theorem category_single_run (log : R → R) (c : wstring) (calls : List Call) :
    ∀ m : NaiveBayes, (∀ d cate, Call.Training d cate ∈ calls → cate = c) →
      (m.category_ = [] ∨ ∃ k : Int, 1 ≤ k ∧ m.category_ = [(c, k)]) →
      ((run log m calls).category_ = [] ∧ ∀ d cate, Call.Training d cate ∉ calls) ∨
        ∃ k : Int, 1 ≤ k ∧ (run log m calls).category_ = [(c, k)] := by
  induction calls with
  | nil =>
    intro m _ h
    rcases h with h | h
    · exact Or.inl ⟨h, fun d cate hmem => List.not_mem_nil _ hmem⟩
    · exact Or.inr h
  | cons call rest ih =>
    intro m hall h
    rw [run_cons]
    have hrest : ∀ d cate, Call.Training d cate ∈ rest → cate = c :=
      fun d cate hmem => hall d cate (List.mem_cons_of_mem _ hmem)
    cases call with
    | Training d0 c0 =>
      have hc0 : c0 = c := hall d0 c0 (List.mem_cons_self _ _)
      subst hc0
      have hq : ∃ k : Int, 1 ≤ k ∧ (exec log m (Call.Training d0 c0)).category_ = [(c0, k)] := by
        rw [exec_category]
        rcases h with h | ⟨k, hk, h⟩
        · exact ⟨1, le_refl _, by rw [h]; rfl⟩
        · exact ⟨k + 1, by omega, by rw [h]; exact UMap.alter_cons_self c0 k [] 0 (· + 1)⟩
      rcases ih _ hrest (Or.inr hq) with ⟨h1, _⟩ | h1
      · obtain ⟨k, hk, hq⟩ := hq
        right
        rcases ih _ hrest (Or.inr ⟨k, hk, hq⟩) with ⟨h2, _⟩ | h2
        · exfalso
          have hkeys : c0 ∈ UMap.keys (run log (exec log m (Call.Training d0 c0)) rest).category_ := by
            clear h1 h2 ih
            have hmono : ∀ (l : List Call) (st : NaiveBayes), c0 ∈ UMap.keys st.category_ →
                c0 ∈ UMap.keys (run log st l).category_ := by
              intro l
              induction l with
              | nil => intro st hst; exact hst
              | cons x xs ihx =>
                intro st hst
                rw [run_cons]
                apply ihx
                rw [exec_category]
                cases x with
                | Training _ cate => exact (UMap.mem_keys_alter _ _ _ _ _).mpr (Or.inl hst)
                | Classifier _ => exact hst
            apply hmono
            rw [hq]
            exact List.mem_cons_self _ _
          rw [h1] at hkeys
          exact absurd hkeys (List.not_mem_nil _)
        · exact h2
      · exact Or.inr h1
    | Classifier d0 =>
      have hq : (exec log m (Call.Classifier d0)).category_ = m.category_ := by
        rw [exec_category]
      rcases ih (exec log m (Call.Classifier d0)) hrest (by rw [hq]; exact h) with ⟨h1, h2⟩ | h1
      · left
        refine ⟨h1, ?_⟩
        intro d cate hmem
        rcases List.mem_cons.mp hmem with hmem | hmem
        · exact absurd hmem (by simp)
        · exact h2 d cate hmem
      · exact Or.inr h1

theorem Classifier_single (m : NaiveBayes) (doc c : wstring) (k : Int) (hk : 1 ≤ k)
    (hcat : m.category_ = [(c, k)]) (hc : ∀ t, 0 ≤ tokenCount m c t)
    (hs : 0 ≤ (SumCategory m c).1) (hL : doc.length < 2 ^ 64)
    (hS : (SumCategory m c).1 ≤ INT_MAX) (hV : m.vocabularies_.length < 2 ^ 64) :
    (Classifier Real.log m doc).1 = c := by
  have hmem : c ∈ UMap.keys m.category_ := by
    rw [hcat]
    exact List.mem_cons_self _ _
  apply Classifier_of_greatest Real.log m doc hmem
  · have hval : UMap.value m.category_ c 0 = k := by
      rw [hcat]
      simp [UMap.value, UMap.find_cons_self]
    exact categoryScore_gt_sentinel m doc c (by rw [hval]; exact hk) (fun w _ => hc w.1) hs hL
      hS hV (by rw [hcat]; norm_num)
  · intro x hx hne
    rw [hcat] at hx
    simp only [UMap.keys_cons, UMap.keys_nil, List.mem_singleton] at hx
    exact absurd hx hne

/-! ### Categories of a trained model -/

theorem mem_keys_category_exec (log : R → R) (m : NaiveBayes) (call : Call) {c : wstring}
    (h : c ∈ UMap.keys m.category_) : c ∈ UMap.keys (exec log m call).category_ := by
  rw [exec_category]
  cases call with
  | Training _ cate => exact (UMap.mem_keys_alter _ _ _ _ _).mpr (Or.inl h)
  | Classifier _ => exact h

theorem mem_keys_category_run (log : R → R) (calls : List Call) {c : wstring} :
    ∀ m : NaiveBayes, c ∈ UMap.keys m.category_ →
      c ∈ UMap.keys (run log m calls).category_ := by
  induction calls with
  | nil => intro m h; exact h
  | cons call rest ih =>
    intro m h
    rw [run_cons]
    exact ih _ (mem_keys_category_exec log m call h)

/-- The category of a `Training` call of the sequence is a key of `category_`. -/
theorem mem_keys_category_of_Training (log : R → R) (calls : List Call) {d c : wstring} :
    ∀ m : NaiveBayes, Call.Training d c ∈ calls →
      c ∈ UMap.keys (run log m calls).category_ := by
  induction calls with
  | nil => intro m h; exact absurd h (List.not_mem_nil _)
  | cons call rest ih =>
    intro m h
    rw [run_cons]
    rcases List.mem_cons.mp h with h | h
    · apply mem_keys_category_run
      rw [← h, exec_category]
      exact (UMap.mem_keys_alter _ _ _ _ _).mpr (Or.inr rfl)
    · exact ih _ h

theorem entries_pos_alter (l : Count) (k : wstring) (h : ∀ e ∈ l, 1 ≤ e.2) :
    ∀ e ∈ UMap.alter l k 0 (· + 1), 1 ≤ e.2 := by
  induction l with
  | nil =>
    intro e he
    rw [UMap.alter_nil, List.mem_singleton] at he
    rw [he]
    show (1 : Int) ≤ 0 + 1
    omega
  | cons x rest ih =>
    obtain ⟨a, v⟩ := x
    have hv : 1 ≤ v := h (a, v) (List.mem_cons_self _ _)
    have hrest : ∀ e ∈ rest, 1 ≤ e.2 := fun e he => h e (List.mem_cons_of_mem _ he)
    intro e he
    by_cases hk : a = k
    · subst hk
      rw [UMap.alter_cons_self] at he
      rcases List.mem_cons.mp he with he | he
      · rw [he]
        show 1 ≤ v + 1
        omega
      · exact hrest e he
    · rw [UMap.alter_cons_ne _ _ _ _ hk] at he
      rcases List.mem_cons.mp he with he | he
      · rw [he]
        exact hv
      · exact ih hrest e he

/-- Every entry of `category_` of a state reached from the empty model has a count of at
least 1. -/
theorem category_entries_pos_run (log : R → R) (calls : List Call) :
    ∀ m : NaiveBayes, (∀ e ∈ m.category_, 1 ≤ e.2) →
      ∀ e ∈ (run log m calls).category_, 1 ≤ e.2 := by
  induction calls with
  | nil => intro m h; exact h
  | cons call rest ih =>
    intro m h
    rw [run_cons]
    apply ih
    rw [exec_category]
    cases call with
    | Training _ cate => exact entries_pos_alter _ _ h
    | Classifier _ => exact h

theorem value_pos_of_entries (l : Count) {c : wstring} (hc : c ∈ UMap.keys l)
    (h : ∀ e ∈ l, 1 ≤ e.2) : 1 ≤ UMap.value l c 0 := by
  induction l with
  | nil => exact absurd hc (List.not_mem_nil _)
  | cons x rest ih =>
    obtain ⟨a, v⟩ := x
    by_cases hk : a = c
    · subst hk
      simp only [UMap.value, UMap.find_cons_self, Option.getD_some]
      exact h (a, v) (List.mem_cons_self _ _)
    · simp only [UMap.value, UMap.find_cons_ne _ _ hk]
      rw [UMap.keys_cons, List.mem_cons] at hc
      rcases hc with hc | hc
      · exact absurd hc.symm hk
      · exact ih hc (fun e he => h e (List.mem_cons_of_mem _ he))

/-! ### Scenarios -/

/-- The score in the state `withOrder m cats`, when it is a number: only the prior term
depends on `cats`. -/
theorem categoryScore_withOrder (log : R → R) (m : NaiveBayes) (cats : Count)
    (doc c : wstring) (hk : 1 ≤ UMap.value cats c 0)
    (hc : ∀ w ∈ SplitWords m doc, 0 ≤ tokenCount m c w.1)
    (hd : SplitWords m doc = [] ∨
      0 < (SumCategory m c).1 + (m.vocabularies_.length : Int)) :
    categoryScore log (withOrder m cats) doc c
      = Dbl.fin (log (((UMap.value cats c 0 : Int) : R) / (cats.length : R)) +
          ((SplitWords m doc).map (fun w => log (((tokenCount m c w.1 : Int) + 1 : R)
            / (((SumCategory m c).1 : R) + (m.vocabularies_.length : R))))).sum) :=
  categoryScore_fin log (withOrder m cats) doc c hk hc hd

theorem neg_DBL_MAX_lt {x : ℝ} (h : -4 ≤ x) :
    Dbl.lt (Dbl.fin (-DBL_MAX)) (Dbl.fin x) = true :=
  dbl_lt_fin_of_ge h (by norm_num)

theorem perm_pair {α : Type} [DecidableEq α] {l : List α} {a b : α} (h : l.Perm [a, b]) :
    l = [a, b] ∨ l = [b, a] := by
  have h2 := List.mem_permutations'.mpr h
  simpa [List.permutations', List.permutations'Aux] using h2

/-- The scores in the model trained with ("aaa", "X") and ("bbb", "Y"), n = 2, in either
iteration order of the two categories, for the documents "aaa", "bbb" and "ab". -/
theorem scores_aaa_bbb (cats : Count)
    (hc : cats = [(['X'], 1), (['Y'], 1)] ∨ cats = [(['Y'], 1), (['X'], 1)]) :
    categoryScore Real.log (withOrder (Training (Training (ctor 2) ['a', 'a', 'a'] ['X']) ['b', 'b', 'b'] ['Y']) cats) ['a', 'a', 'a'] ['X']
        = Dbl.fin (Real.log (1 / 2) + Real.log (3 / 4)) ∧
    categoryScore Real.log (withOrder (Training (Training (ctor 2) ['a', 'a', 'a'] ['X']) ['b', 'b', 'b'] ['Y']) cats) ['a', 'a', 'a'] ['Y']
        = Dbl.fin (Real.log (1 / 2) + Real.log (1 / 4)) ∧
    categoryScore Real.log (withOrder (Training (Training (ctor 2) ['a', 'a', 'a'] ['X']) ['b', 'b', 'b'] ['Y']) cats) ['b', 'b', 'b'] ['X']
        = Dbl.fin (Real.log (1 / 2) + Real.log (1 / 4)) ∧
    categoryScore Real.log (withOrder (Training (Training (ctor 2) ['a', 'a', 'a'] ['X']) ['b', 'b', 'b'] ['Y']) cats) ['b', 'b', 'b'] ['Y']
        = Dbl.fin (Real.log (1 / 2) + Real.log (3 / 4)) ∧
    categoryScore Real.log (withOrder (Training (Training (ctor 2) ['a', 'a', 'a'] ['X']) ['b', 'b', 'b'] ['Y']) cats) ['a', 'b'] ['X']
        = Dbl.fin (Real.log (1 / 2) + Real.log (1 / 4)) ∧
    categoryScore Real.log (withOrder (Training (Training (ctor 2) ['a', 'a', 'a'] ['X']) ['b', 'b', 'b'] ['Y']) cats) ['a', 'b'] ['Y']
        = Dbl.fin (Real.log (1 / 2) + Real.log (1 / 4)) := by
  have vX : UMap.value cats ['X'] 0 = 1 := by rcases hc with rfl | rfl <;> decide
  have vY : UMap.value cats ['Y'] 0 = 1 := by rcases hc with rfl | rfl <;> decide
  have hlen : cats.length = 2 := by rcases hc with rfl | rfl <;> rfl
  have wa : SplitWords (Training (Training (ctor 2) ['a', 'a', 'a'] ['X']) ['b', 'b', 'b'] ['Y']) ['a', 'a', 'a'] = [(['a', 'a'], 2)] := by decide
  have wb : SplitWords (Training (Training (ctor 2) ['a', 'a', 'a'] ['X']) ['b', 'b', 'b'] ['Y']) ['b', 'b', 'b'] = [(['b', 'b'], 2)] := by decide
  have wc : SplitWords (Training (Training (ctor 2) ['a', 'a', 'a'] ['X']) ['b', 'b', 'b'] ['Y']) ['a', 'b'] = [(['a', 'b'], 1)] := by decide
  have tXa : tokenCount (Training (Training (ctor 2) ['a', 'a', 'a'] ['X']) ['b', 'b', 'b'] ['Y']) ['X'] ['a', 'a'] = 2 := by decide
  have tYa : tokenCount (Training (Training (ctor 2) ['a', 'a', 'a'] ['X']) ['b', 'b', 'b'] ['Y']) ['Y'] ['a', 'a'] = 0 := by decide
  have tXb : tokenCount (Training (Training (ctor 2) ['a', 'a', 'a'] ['X']) ['b', 'b', 'b'] ['Y']) ['X'] ['b', 'b'] = 0 := by decide
  have tYb : tokenCount (Training (Training (ctor 2) ['a', 'a', 'a'] ['X']) ['b', 'b', 'b'] ['Y']) ['Y'] ['b', 'b'] = 2 := by decide
  have tXc : tokenCount (Training (Training (ctor 2) ['a', 'a', 'a'] ['X']) ['b', 'b', 'b'] ['Y']) ['X'] ['a', 'b'] = 0 := by decide
  have tYc : tokenCount (Training (Training (ctor 2) ['a', 'a', 'a'] ['X']) ['b', 'b', 'b'] ['Y']) ['Y'] ['a', 'b'] = 0 := by decide
  have sX : (SumCategory (Training (Training (ctor 2) ['a', 'a', 'a'] ['X']) ['b', 'b', 'b'] ['Y']) ['X']).1 = 2 := by decide
  have sY : (SumCategory (Training (Training (ctor 2) ['a', 'a', 'a'] ['X']) ['b', 'b', 'b'] ['Y']) ['Y']).1 = 2 := by decide
  have hV : (Training (Training (ctor 2) ['a', 'a', 'a'] ['X']) ['b', 'b', 'b'] ['Y']).vocabularies_.length = 2 := by decide
  refine ⟨?_, ?_, ?_, ?_, ?_, ?_⟩
  · rw [categoryScore_withOrder Real.log _ cats _ _ (by rw [vX]) (by decide)
      (Or.inr (by decide)), wa]
    simp only [List.map_cons, List.map_nil, List.sum_cons, List.sum_nil, vX, hlen, tXa, sX, hV]
    norm_num
  · rw [categoryScore_withOrder Real.log _ cats _ _ (by rw [vY]) (by decide)
      (Or.inr (by decide)), wa]
    simp only [List.map_cons, List.map_nil, List.sum_cons, List.sum_nil, vY, hlen, tYa, sY, hV]
    norm_num
  · rw [categoryScore_withOrder Real.log _ cats _ _ (by rw [vX]) (by decide)
      (Or.inr (by decide)), wb]
    simp only [List.map_cons, List.map_nil, List.sum_cons, List.sum_nil, vX, hlen, tXb, sX, hV]
    norm_num
  · rw [categoryScore_withOrder Real.log _ cats _ _ (by rw [vY]) (by decide)
      (Or.inr (by decide)), wb]
    simp only [List.map_cons, List.map_nil, List.sum_cons, List.sum_nil, vY, hlen, tYb, sY, hV]
    norm_num
  · rw [categoryScore_withOrder Real.log _ cats _ _ (by rw [vX]) (by decide)
      (Or.inr (by decide)), wc]
    simp only [List.map_cons, List.map_nil, List.sum_cons, List.sum_nil, vX, hlen, tXc, sX, hV]
    norm_num
  · rw [categoryScore_withOrder Real.log _ cats _ _ (by rw [vY]) (by decide)
      (Or.inr (by decide)), wc]
    simp only [List.map_cons, List.map_nil, List.sum_cons, List.sum_nil, vY, hlen, tYc, sY, hV]
    norm_num

theorem log_bounds :
    -1 ≤ Real.log (1 / 2) ∧ -1 ≤ Real.log (3 / 4) ∧ -3 ≤ Real.log (1 / 4) ∧
      Real.log (1 / 4) < Real.log (3 / 4) := by
  have h1 := Real.one_sub_inv_le_log_of_pos (by norm_num : (0 : ℝ) < 1 / 2)
  have h2 := Real.one_sub_inv_le_log_of_pos (by norm_num : (0 : ℝ) < 3 / 4)
  have h3 := Real.one_sub_inv_le_log_of_pos (by norm_num : (0 : ℝ) < 1 / 4)
  have h4 : Real.log (1 / 4) < Real.log (3 / 4) :=
    Real.log_lt_log (by norm_num) (by norm_num)
  norm_num at h1 h2 h3
  refine ⟨by linarith, by linarith, by linarith, h4⟩

/-! ### Positions in the iteration order -/

theorem mem_of_eq_append {cats l1 l2 : Count} {e : wstring × Int}
    (h : cats = l1 ++ e :: l2) : e ∈ cats := by
  subst h
  exact List.mem_append_right _ (List.mem_cons_self _ _)

theorem head_mem_keys_of_eq_append {a e : wstring × Int} {rest l1 l2 : Count}
    (h : a :: rest = l1 ++ e :: l2) (hne : e.1 ≠ a.1) : a.1 ∈ UMap.keys l1 := by
  cases l1 with
  | nil =>
    rw [List.nil_append] at h
    have h1 := (List.cons.inj h).1
    exact absurd (by rw [h1]) hne
  | cons x xs =>
    rw [List.cons_append] at h
    have h1 := (List.cons.inj h).1
    rw [UMap.keys_cons, h1]
    exact List.mem_cons_self _ _

/-! ### Two categories with the same likelihood terms -/

theorem Score_prior_ordering (m : NaiveBayes) (words : Count) (A B : wstring) (s : Int)
    (h1 : UMap.value m.category_ B 0 < UMap.value m.category_ A 0)
    (h2 : 1 ≤ UMap.value m.category_ B 0)
    (h3 : ∀ w ∈ words, tokenCount m A w.1 = tokenCount m B w.1)
    (h5 : ∀ w ∈ words, 0 ≤ tokenCount m A w.1) :
    ((words = [] ∨ 0 < s + (m.vocabularies_.length : Int)) →
      Dbl.lt (Score Real.log m words B s).1 (Score Real.log m words A s).1 = true) ∧
    (words ≠ [] → s + (m.vocabularies_.length : Int) = 0 →
      (Score Real.log m words A s).1 = Dbl.pinf ∧
      (Score Real.log m words B s).1 = Dbl.pinf ∧
      Dbl.lt (Score Real.log m words B s).1 (Score Real.log m words A s).1 = false) := by
  have hkA : 1 ≤ UMap.value m.category_ A 0 := by omega
  have hcB : ∀ w ∈ words, 0 ≤ tokenCount m B w.1 := by
    intro w hw
    rw [← h3 w hw]
    exact h5 w hw
  constructor
  · intro hd
    rw [Score_fst_fin Real.log m words A s hkA h5 hd,
      Score_fst_fin Real.log m words B s h2 hcB hd, Dbl.lt_fin_fin]
    unfold scoreValue
    have hterms : words.map (fun w => Real.log (((tokenCount m A w.1 : Int) + 1 : ℝ)
          / ((s : ℝ) + (m.vocabularies_.length : ℝ))))
        = words.map (fun w => Real.log (((tokenCount m B w.1 : Int) + 1 : ℝ)
          / ((s : ℝ) + (m.vocabularies_.length : ℝ)))) := by
      apply List.map_congr_left
      intro w hw
      rw [h3 w hw]
    rw [hterms]
    have hlen : 0 < m.category_.length := by
      rcases Nat.eq_zero_or_pos m.category_.length with h | h
      · have hnil : m.category_ = [] := List.length_eq_zero.mp h
        rw [hnil] at h2
        have h0 : UMap.value ([] : Count) B 0 = 0 := rfl
        omega
      · exact h
    have hN : (0 : ℝ) < (m.category_.length : ℝ) := Nat.cast_pos.mpr hlen
    have hB : (0 : ℝ) < ((UMap.value m.category_ B 0 : Int) : ℝ) :=
      Int.cast_pos.mpr (by omega)
    have hAB : ((UMap.value m.category_ B 0 : Int) : ℝ)
        < ((UMap.value m.category_ A 0 : Int) : ℝ) := Int.cast_lt.mpr h1
    have hlog := Real.log_lt_log (div_pos hB hN) (div_lt_div_of_pos_right hAB hN)
    linarith
  · intro hw hd
    have hA := Score_fst_pinf Real.log m words A s hkA h5 hd hw
    have hB := Score_fst_pinf Real.log m words B s h2 hcB hd hw
    refine ⟨hA, hB, ?_⟩
    rw [hA, hB]
    rfl

theorem SumCategory_nonneg_run (n : Int) (calls : List Call) (c : wstring) :
    0 ≤ (SumCategory (run Real.log (ctor n) calls) c).1 := by
  rw [SumCategory_run]
  have h0 : (SumCategory (ctor n) c).1 = 0 := rfl
  rw [h0]
  have := Int.natCast_nonneg (trainedInstances (size_t (ctor n).gram_) c calls)
  omega

end NaiveBayes

/-! ## Properties of the specification -/

namespace NaiveBayes

variable {R : Type} [LinearOrderedField R]

/-- C1, as stated, fails: after `Training("ab", "X")` with n = 1, the score of the document
"cc" (token "c" with count 2) for "X" is `ln (1/1) + ln (1/4)`, not `ln (1/1) + 2 * ln (1/4)`. -/
theorem C1_counterexample :
    (Score Real.log (Training (ctor 1) ['a', 'b'] ['X'])
        (SplitWords (Training (ctor 1) ['a', 'b'] ['X']) ['c', 'c']) ['X']
        (SumCategory (Training (ctor 1) ['a', 'b'] ['X']) ['X']).1).1
      ≠ Dbl.fin (ScoreSpec Real.log (Training (ctor 1) ['a', 'b'] ['X'])
        (SplitWords (Training (ctor 1) ['a', 'b'] ['X']) ['c', 'c']) ['X']
        (SumCategory (Training (ctor 1) ['a', 'b'] ['X']) ['X']).1) := by
  have hm : Training (ctor 1) ['a', 'b'] ['X']
      = ⟨1, [(['X'], 1)], [(['X'], [(['a'], 1), (['b'], 1)])], [(['a'], 0), (['b'], 0)]⟩ := by
    decide
  have hw : SplitWords (Training (ctor 1) ['a', 'b'] ['X']) ['c', 'c'] = [(['c'], 2)] := by
    decide
  have hs : (SumCategory (Training (ctor 1) ['a', 'b'] ['X']) ['X']).1 = 2 := by decide
  rw [Score_fst_fin Real.log _ _ _ _ (by decide) (by decide) (Or.inr (by decide)), hw, hs]
  unfold ScoreSpec scoreValue
  rw [hm]
  have h1 : tokenCount ⟨1, [(['X'], 1)], [(['X'], [(['a'], 1), (['b'], 1)])],
      [(['a'], 0), (['b'], 0)]⟩ ['X'] ['c'] = 0 := by decide
  have h2 : UMap.value [((['X'] : wstring), (1 : Int))] ['X'] 0 = 1 := by decide
  simp only [h1, h2, List.map_cons, List.map_nil, List.sum_cons, List.sum_nil, List.length_cons,
    List.length_nil]
  intro h
  have h0 := Dbl.fin.inj h
  have h3 : Real.log ((0 + 1) / (2 + (0 + 1 + 1 : ℕ))) < 0 :=
    Real.log_neg (by norm_num) (by norm_num)
  push_cast at h0
  linarith

/-- C1, amended: for every model state, token-count mapping `words`, category `cate` and
`sum_cate`, `Score` returns the prior term `log (CategoryCounts[cate] / number of categories)`
plus, for every entry `(token, count)` of `words`, the single term
`log ((TokenCounts[cate][token] + 1) / (sum_cate + |Vocabulary|))` in the arithmetic of
doubles; the count is not used. When `CategoryCounts[cate]` is at least 1, the token counts
are not negative and `sum_cate + |Vocabulary|` is positive (or `words` is empty), this is the
real number `ln (CategoryCounts[cate] / number of categories)` plus the sum of the
`ln ((TokenCounts[cate][token] + 1) / (sum_cate + |Vocabulary|))`. -/
theorem C1_Score_formula (m : NaiveBayes) (words : Count) (cate : wstring) (sum_cate : Int) :
    (Score Real.log m words cate sum_cate).1
      = Dbl.log Real.log (Dbl.div ((UMap.value m.category_ cate 0 : Int) : ℝ)
            ((UMap.alter m.category_ cate 0 id).length : ℝ)) +
          (words.map (fun w => Dbl.log Real.log
            (Dbl.div ((tokenCount m cate w.1 : Int) + 1 : ℝ)
              ((sum_cate : ℝ) + (m.vocabularies_.length : ℝ))))).sum ∧
    (cate ∈ UMap.keys m.category_ →
      (UMap.alter m.category_ cate 0 id).length = m.category_.length) ∧
    (1 ≤ UMap.value m.category_ cate 0 →
      (∀ w ∈ words, 0 ≤ tokenCount m cate w.1) →
      (words = [] ∨ 0 < sum_cate + (m.vocabularies_.length : Int)) →
      (Score Real.log m words cate sum_cate).1
        = Dbl.fin (Real.log (((UMap.value m.category_ cate 0 : Int) : ℝ)
              / (m.category_.length : ℝ)) +
            (words.map (fun w => Real.log (((tokenCount m cate w.1 : Int) + 1 : ℝ)
              / ((sum_cate : ℝ) + (m.vocabularies_.length : ℝ))))).sum)) := by
  refine ⟨?_, ?_, ?_⟩
  · rw [Score_fst]
    simp only [mul_one]
  · intro h
    rw [UMap.alter_id_of_mem _ _ h]
  · intro hk hc hd
    exact Score_fst_fin Real.log m words cate sum_cate hk hc hd

/-- C1, amended, at n = 1, the model trained with ("ab", "X") and the document "cc": the
score of "X" is the number `ln (1/1) + ln (1/4)`. -/
theorem C1_Score_formula_witness :
    (Score Real.log (Training (ctor 1) ['a', 'b'] ['X'])
        (SplitWords (Training (ctor 1) ['a', 'b'] ['X']) ['c', 'c']) ['X']
        (SumCategory (Training (ctor 1) ['a', 'b'] ['X']) ['X']).1).1
      = Dbl.fin (Real.log (((UMap.value (Training (ctor 1) ['a', 'b'] ['X']).category_ ['X'] 0
              : Int) : ℝ) / ((Training (ctor 1) ['a', 'b'] ['X']).category_.length : ℝ)) +
          ((SplitWords (Training (ctor 1) ['a', 'b'] ['X']) ['c', 'c']).map
            (fun w => Real.log
              (((tokenCount (Training (ctor 1) ['a', 'b'] ['X']) ['X'] w.1 : Int) + 1 : ℝ)
              / ((((SumCategory (Training (ctor 1) ['a', 'b'] ['X']) ['X']).1 : Int) : ℝ)
                + ((Training (ctor 1) ['a', 'b'] ['X']).vocabularies_.length : ℝ))))).sum) :=
  (C1_Score_formula (Training (ctor 1) ['a', 'b'] ['X'])
    (SplitWords (Training (ctor 1) ['a', 'b'] ['X']) ['c', 'c']) ['X']
    (SumCategory (Training (ctor 1) ['a', 'b'] ['X']) ['X']).1).2.2
    (by decide) (by decide) (Or.inr (by decide))

/-- C2: for every model reached from the empty one by a sequence of calls with at least one
`Training` call, in every iteration order `cats` of its categories, and for every document,
`Classifier` returns a key of `category_`; no category has a greater score (with that
category's `SumCategory`), no score is NaN, and every category before the returned one in the
iteration order has a strictly smaller score. The bounds are those of the C++ types: the
document length, the number of categories and the size of the vocabulary are `size_t` values,
a category token total is an `int`. -/
theorem C2_Classifier_argmax (n : Int) (calls : List Call) (cats : Count) (doc : wstring)
    (h1 : ∃ d c, Call.Training d c ∈ calls)
    (h2 : cats.Perm (run Real.log (ctor n) calls).category_)
    (h3 : doc.length < 2 ^ 64)
    (h4 : ∀ c ∈ UMap.keys cats, (SumCategory (run Real.log (ctor n) calls) c).1 ≤ INT_MAX)
    (h5 : (run Real.log (ctor n) calls).vocabularies_.length < 2 ^ 64)
    (h6 : cats.length < 2 ^ 64) :
    ∃ l1 k l2,
      cats = l1 ++
        ((Classifier Real.log (withOrder (run Real.log (ctor n) calls) cats) doc).1, k) :: l2 ∧
      (∀ c ∈ UMap.keys cats,
        Dbl.lt
          (categoryScore Real.log (withOrder (run Real.log (ctor n) calls) cats) doc
            (Classifier Real.log (withOrder (run Real.log (ctor n) calls) cats) doc).1)
          (categoryScore Real.log (withOrder (run Real.log (ctor n) calls) cats) doc c)
          = false) ∧
      (∀ c ∈ UMap.keys cats,
        categoryScore Real.log (withOrder (run Real.log (ctor n) calls) cats) doc c
          ≠ Dbl.nan) ∧
      (∀ c ∈ UMap.keys l1,
        Dbl.lt
          (categoryScore Real.log (withOrder (run Real.log (ctor n) calls) cats) doc c)
          (categoryScore Real.log (withOrder (run Real.log (ctor n) calls) cats) doc
            (Classifier Real.log (withOrder (run Real.log (ctor n) calls) cats) doc).1)
          = true) := by
  have hentries : ∀ e ∈ cats, 1 ≤ e.2 := by
    intro e he
    exact category_entries_pos_run Real.log calls (ctor n)
      (fun x hx => absurd hx (List.not_mem_nil x)) e (h2.subset he)
  have hgt : ∀ c ∈ UMap.keys cats, Dbl.lt (Dbl.fin (-DBL_MAX))
      (categoryScore Real.log (withOrder (run Real.log (ctor n) calls) cats) doc c) = true := by
    intro c hc
    apply categoryScore_gt_sentinel (withOrder (run Real.log (ctor n) calls) cats) doc c
    · exact value_pos_of_entries cats hc hentries
    · intro w _
      exact tokenCount_nonneg_run Real.log calls (ctor n) (fun _ _ => le_refl _) c w.1
    · have e : (SumCategory (withOrder (run Real.log (ctor n) calls) cats) c).1
          = (SumCategory (run Real.log (ctor n) calls) c).1 := rfl
      rw [e, SumCategory_run]
      have : (SumCategory (ctor n) c).1 = 0 := rfl
      rw [this]
      have := Int.natCast_nonneg (trainedInstances (size_t (ctor n).gram_) c calls)
      omega
    · exact h3
    · exact h4 c hc
    · exact h5
    · exact h6
  have hnan : ∀ e ∈ cats,
      categoryScore Real.log (withOrder (run Real.log (ctor n) calls) cats) doc e.1
        ≠ Dbl.nan :=
    fun e he => Dbl.ne_nan_of_lt_right (hgt e.1 (List.mem_map_of_mem Prod.fst he))
  have hfst := Classifier_fst Real.log (withOrder (run Real.log (ctor n) calls) cats) doc
  have hcat : (withOrder (run Real.log (ctor n) calls) cats).category_ = cats := rfl
  rw [hcat] at hfst
  rcases Classifier_pick_fold
      (categoryScore Real.log (withOrder (run Real.log (ctor n) calls) cats) doc) cats hnan
      ([], Dbl.fin (-DBL_MAX)) with ⟨_, hno⟩ | ⟨l1, e, l2, e1, e2, _, e4, e5⟩
  · exfalso
    obtain ⟨d, c, hmem⟩ := h1
    have hkey : c ∈ UMap.keys (run Real.log (ctor n) calls).category_ :=
      mem_keys_category_of_Training Real.log calls (ctor n) hmem
    obtain ⟨x, hx, _⟩ := List.mem_map.mp hkey
    have hx2 : x ∈ cats := h2.symm.subset hx
    have := hno x hx2
    rw [hgt x.1 (List.mem_map_of_mem Prod.fst hx2)] at this
    exact absurd this (by decide)
  · rw [e2] at hfst
    rw [hfst]
    refine ⟨l1, e.2, l2, e1, ?_, ?_, ?_⟩
    · intro c hc
      obtain ⟨x, hx, rfl⟩ := List.mem_map.mp hc
      rw [e1] at hx
      rcases List.mem_append.mp hx with hx | hx
      · exact Dbl.lt_asymm_dbl (e4 x hx)
      · rcases List.mem_cons.mp hx with hx | hx
        · rw [hx]
          exact Dbl.lt_self _
        · exact e5 x hx
    · intro c hc
      obtain ⟨x, hx, rfl⟩ := List.mem_map.mp hc
      exact hnan x hx
    · intro c hc
      obtain ⟨x, hx, rfl⟩ := List.mem_map.mp hc
      exact e4 x hx

/-- C2 at n = 2, the calls `Training("aaa", "X")`, `Training("bbb", "Y")` and the iteration
order "X", "Y". For the document "bbb" the second category has the greater score and is
returned, the first one standing before it with a strictly smaller score; for the document
"ab" the two scores are equal and the first category, "X", is returned. -/
theorem C2_Classifier_argmax_witness :
    ((Classifier Real.log (withOrder (run Real.log (ctor 2)
          [Call.Training ['a', 'a', 'a'] ['X'], Call.Training ['b', 'b', 'b'] ['Y']])
          [(['X'], 1), (['Y'], 1)]) ['b', 'b', 'b']).1 = ['Y'] ∧
      Dbl.lt
        (categoryScore Real.log (withOrder (run Real.log (ctor 2)
          [Call.Training ['a', 'a', 'a'] ['X'], Call.Training ['b', 'b', 'b'] ['Y']])
          [(['X'], 1), (['Y'], 1)]) ['b', 'b', 'b'] ['X'])
        (categoryScore Real.log (withOrder (run Real.log (ctor 2)
          [Call.Training ['a', 'a', 'a'] ['X'], Call.Training ['b', 'b', 'b'] ['Y']])
          [(['X'], 1), (['Y'], 1)]) ['b', 'b', 'b'] ['Y']) = true) ∧
    ((Classifier Real.log (withOrder (run Real.log (ctor 2)
          [Call.Training ['a', 'a', 'a'] ['X'], Call.Training ['b', 'b', 'b'] ['Y']])
          [(['X'], 1), (['Y'], 1)]) ['a', 'b']).1 = ['X'] ∧
      categoryScore Real.log (withOrder (run Real.log (ctor 2)
          [Call.Training ['a', 'a', 'a'] ['X'], Call.Training ['b', 'b', 'b'] ['Y']])
          [(['X'], 1), (['Y'], 1)]) ['a', 'b'] ['X']
        = categoryScore Real.log (withOrder (run Real.log (ctor 2)
          [Call.Training ['a', 'a', 'a'] ['X'], Call.Training ['b', 'b', 'b'] ['Y']])
          [(['X'], 1), (['Y'], 1)]) ['a', 'b'] ['Y']) := by
  obtain ⟨_, _, bX, bY, cX, cY⟩ := scores_aaa_bbb [(['X'], 1), (['Y'], 1)] (Or.inl rfl)
  obtain ⟨_, _, _, hlog⟩ := log_bounds
  have hrun : (run Real.log (ctor 2)
          [Call.Training ['a', 'a', 'a'] ['X'], Call.Training ['b', 'b', 'b'] ['Y']])
      = Training (Training (ctor 2) ['a', 'a', 'a'] ['X']) ['b', 'b', 'b'] ['Y'] := rfl
  rw [hrun]
  constructor
  · obtain ⟨l1, k, l2, e, hmax, _, hbefore⟩ := C2_Classifier_argmax 2
      [Call.Training ['a', 'a', 'a'] ['X'], Call.Training ['b', 'b', 'b'] ['Y']]
      [(['X'], 1), (['Y'], 1)] ['b', 'b', 'b']
      ⟨['a', 'a', 'a'], ['X'], List.mem_cons_self _ _⟩ (by decide) (by decide) (by decide)
      (by decide) (by decide)
    rw [hrun] at e hmax hbefore
    have hm := mem_of_eq_append e
    simp only [List.mem_cons, Prod.mk.injEq, List.mem_singleton, List.not_mem_nil,
      or_false] at hm
    rcases hm with ⟨hL, _⟩ | ⟨hL, _⟩
    · have h := hmax ['Y'] (by decide)
      have hlt : Dbl.lt (Dbl.fin (Real.log (1 / 2) + Real.log (1 / 4)))
          (Dbl.fin (Real.log (1 / 2) + Real.log (3 / 4))) = true :=
        (Dbl.lt_fin_fin _ _).mpr (by linarith)
      rw [hL, bX, bY, hlt] at h
      exact absurd h (by decide)
    · have hX := hbefore ['X'] (head_mem_keys_of_eq_append e (by rw [hL]; decide))
      rw [hL] at hX
      exact ⟨hL, hX⟩
  · obtain ⟨l1, k, l2, e, _, _, hbefore⟩ := C2_Classifier_argmax 2
      [Call.Training ['a', 'a', 'a'] ['X'], Call.Training ['b', 'b', 'b'] ['Y']]
      [(['X'], 1), (['Y'], 1)] ['a', 'b']
      ⟨['a', 'a', 'a'], ['X'], List.mem_cons_self _ _⟩ (by decide) (by decide) (by decide)
      (by decide) (by decide)
    rw [hrun] at e hbefore
    have hm := mem_of_eq_append e
    simp only [List.mem_cons, Prod.mk.injEq, List.mem_singleton, List.not_mem_nil,
      or_false] at hm
    rcases hm with ⟨hL, _⟩ | ⟨hL, _⟩
    · exact ⟨hL, cX.trans cY.symm⟩
    · have hX := hbefore ['X'] (head_mem_keys_of_eq_append e (by rw [hL]; decide))
      rw [hL, cX, cY, Dbl.lt_self] at hX
      exact absurd hX (by decide)

/-- C3: for a window length `1 ≤ gram_` (an `int`), the keys of `SplitWords(doc)` are exactly
the windows `doc.substr(i, gram_)` with `i + gram_ ≤ doc.length`, no key occurs twice, the value
of a token is the number of offsets at which it starts (0 for a token that is no key), and the
result is empty when the document is shorter than `gram_`. -/
theorem C3_SplitWords_windows (m : NaiveBayes) (doc : wstring)
    (h1 : 1 ≤ m.gram_) (h2 : m.gram_ ≤ INT_MAX) :
    (∀ t, t ∈ UMap.keys (SplitWords m doc) ↔
      ∃ i, i + m.gram_.toNat ≤ doc.length ∧ substr doc i m.gram_.toNat = t) ∧
    (UMap.keys (SplitWords m doc)).Nodup ∧
    (∀ t, UMap.value (SplitWords m doc) t 0 = (windowCount doc m.gram_.toNat t : Int)) ∧
    (∀ t, t ∈ UMap.keys (SplitWords m doc) →
      UMap.find (SplitWords m doc) t = some (windowCount doc m.gram_.toNat t : Int)) ∧
    (doc.length < m.gram_.toNat → SplitWords m doc = []) := by
  have hg : size_t m.gram_ = m.gram_.toNat := size_t_of_nonneg (by omega) h2
  have hk := mem_keys_SplitWords m doc
  have hv := SplitWords_value m doc
  rw [hg] at hk hv
  refine ⟨hk, SplitWords_nodup m doc, hv, ?_, ?_⟩
  · intro t ht
    obtain ⟨v, hfv⟩ := (UMap.mem_keys_iff_find _ _).mp ht
    have := hv t
    rw [UMap.value, hfv] at this
    rw [hfv, ← this]
    rfl
  · intro hlt
    have hnone : ∀ t, t ∉ UMap.keys (SplitWords m doc) := by
      intro t ht
      obtain ⟨i, hi, _⟩ := (hk t).mp ht
      omega
    cases hsw : SplitWords m doc with
    | nil => rfl
    | cons e rest =>
      exfalso
      apply hnone e.1
      rw [hsw]
      exact List.mem_map_of_mem Prod.fst (List.mem_cons_self _ _)

/-- C3 at n = 2 and the document "ababa". -/
theorem C3_SplitWords_windows_witness :
    (∀ t, t ∈ UMap.keys (SplitWords (ctor 2) ['a', 'b', 'a', 'b', 'a']) ↔
      ∃ i, i + (ctor 2).gram_.toNat ≤ ['a', 'b', 'a', 'b', 'a'].length ∧
        substr ['a', 'b', 'a', 'b', 'a'] i (ctor 2).gram_.toNat = t) ∧
    (UMap.keys (SplitWords (ctor 2) ['a', 'b', 'a', 'b', 'a'])).Nodup ∧
    (∀ t, UMap.value (SplitWords (ctor 2) ['a', 'b', 'a', 'b', 'a']) t 0
      = (windowCount ['a', 'b', 'a', 'b', 'a'] (ctor 2).gram_.toNat t : Int)) ∧
    (∀ t, t ∈ UMap.keys (SplitWords (ctor 2) ['a', 'b', 'a', 'b', 'a']) →
      UMap.find (SplitWords (ctor 2) ['a', 'b', 'a', 'b', 'a']) t
        = some (windowCount ['a', 'b', 'a', 'b', 'a'] (ctor 2).gram_.toNat t : Int)) ∧
    (['a', 'b', 'a', 'b', 'a'].length < (ctor 2).gram_.toNat →
      SplitWords (ctor 2) ['a', 'b', 'a', 'b', 'a'] = []) :=
  C3_SplitWords_windows (ctor 2) ['a', 'b', 'a', 'b', 'a'] (by decide) (by decide)

/-- C4: after `Training(doc, c)` the count of every token `t` under `c` is its count before
(0 if absent) plus `SplitWords(doc)[t]` (0 if `t` does not occur in `doc`), and the token
table of every other category is the same as before (absent if it was absent). -/
theorem C4_Training_accumulates (m : NaiveBayes) (doc c : wstring) :
    (∀ t, tokenCount (Training m doc c) c t
      = tokenCount m c t + UMap.value (SplitWords m doc) t 0) ∧
    (∀ c', c' ≠ c → UMap.find (Training m doc c).words_ c' = UMap.find m.words_ c') := by
  constructor
  · intro t
    have h := tokenCount_Training_fold c t (SplitWords m doc) m
    rw [UMap.value_add_of_nodup t _ (SplitWords_nodup m doc)] at h
    exact h
  · intro c' hc
    rw [Training_words]
    exact find_words_Training_fold c hc _ m

/-- C5: `Training(doc, c)` stores under `c` the count before the call (0 if absent) plus 1,
for every document, and leaves the entry of every other category as it was. -/
theorem C5_Training_category_count (m : NaiveBayes) (doc c : wstring) :
    UMap.find (Training m doc c).category_ c = some (UMap.value m.category_ c 0 + 1) ∧
    (∀ c', c' ≠ c → UMap.find (Training m doc c).category_ c' = UMap.find m.category_ c') := by
  rw [Training_category]
  exact ⟨UMap.find_alter_self _ _ _ _, fun c' hc => UMap.find_alter_ne _ _ _ hc⟩

/-- C6, as stated, fails: after `Training("a", "X")` with n = 1, `Classifier("b")` leaves a
token table for "X" with the additional key "b". -/
theorem C6_counterexample :
    (Classifier Real.log (Training (ctor 1) ['a'] ['X']) ['b']).2.words_
      ≠ (Training (ctor 1) ['a'] ['X']).words_ := by
  intro h
  have h1 : ['b'] ∈ UMap.keys (UMap.value
      (Classifier Real.log (Training (ctor 1) ['a'] ['X']) ['b']).2.words_ ['X'] []) :=
    Classifier_inserts Real.log (Training (ctor 1) ['a'] ['X']) ['b'] (by decide) (by decide)
  rw [h] at h1
  revert h1
  decide

/-- C6, amended: `Classifier(doc)` leaves `gram_`, `category_` and `vocabularies_` identical,
leaves every count `TokenCounts[c][t]` (0 if absent) and every category token total as they
were, and removes no key of `words_` or of a token table; what it adds are entries with count
0 (every token of `doc` under every category of `category_`). -/
theorem C6_Classifier_effect (log : R → R) (m : NaiveBayes) (doc : wstring) :
    (Classifier log m doc).2.gram_ = m.gram_ ∧
    (Classifier log m doc).2.category_ = m.category_ ∧
    (Classifier log m doc).2.vocabularies_ = m.vocabularies_ ∧
    (∀ c t, tokenCount (Classifier log m doc).2 c t = tokenCount m c t) ∧
    (∀ c, (SumCategory (Classifier log m doc).2 c).1 = (SumCategory m c).1) ∧
    (∀ c, c ∈ UMap.keys m.words_ → c ∈ UMap.keys (Classifier log m doc).2.words_) ∧
    (∀ c t, t ∈ UMap.keys (UMap.value m.words_ c []) →
      t ∈ UMap.keys (UMap.value (Classifier log m doc).2.words_ c [])) ∧
    (∀ c t, c ∈ UMap.keys m.category_ → t ∈ UMap.keys (SplitWords m doc) →
      t ∈ UMap.keys (UMap.value (Classifier log m doc).2.words_ c [])) := by
  have h := Classifier_snd log m doc
  exact ⟨h.gram, h.category, h.vocabularies, h.count, h.total, h.cats, h.toks,
    fun c t hc ht => Classifier_inserts log m doc hc ht⟩

/-- C6, amended, at the model trained once with ("a", "X"), n = 1, and the document "b": the
count of "a" under "X" is still 1 and "b" has been added under "X". -/
theorem C6_Classifier_effect_witness :
    tokenCount (Classifier Real.log (Training (ctor 1) ['a'] ['X']) ['b']).2 ['X'] ['a'] = 1 ∧
    (['X'] ∈ UMap.keys (Training (ctor 1) ['a'] ['X']).category_ ∧
      ['b'] ∈ UMap.keys (SplitWords (Training (ctor 1) ['a'] ['X']) ['b']) ∧
      ['b'] ∈ UMap.keys (UMap.value
        (Classifier Real.log (Training (ctor 1) ['a'] ['X']) ['b']).2.words_ ['X'] [])) :=
  ⟨((C6_Classifier_effect Real.log (Training (ctor 1) ['a'] ['X']) ['b']).2.2.2.1
      ['X'] ['a']).trans (by decide),
    by decide, by decide,
    (C6_Classifier_effect Real.log (Training (ctor 1) ['a'] ['X']) ['b']).2.2.2.2.2.2.2
      ['X'] ['b'] (by decide) (by decide)⟩

/-- C7, as stated, fails: with n = 1, after `Training("a", "X")` and `Classifier("b")` the
token "b" is a key of the token table of "X" and is no key of the vocabulary. -/
theorem C7_counterexample :
    ['b'] ∈ UMap.keys (UMap.value
        (run Real.log (ctor 1) [Call.Training ['a'] ['X'], Call.Classifier ['b']]).words_
        ['X'] []) ∧
      ['b'] ∉ UMap.keys
        (run Real.log (ctor 1) [Call.Training ['a'] ['X'], Call.Classifier ['b']]).vocabularies_ := by
  have e : run Real.log (ctor 1) [Call.Training ['a'] ['X'], Call.Classifier ['b']]
      = (Classifier Real.log (Training (ctor 1) ['a'] ['X']) ['b']).2 := rfl
  rw [e]
  constructor
  · exact Classifier_inserts Real.log (Training (ctor 1) ['a'] ['X']) ['b'] (by decide)
      (by decide)
  · rw [(Classifier_snd Real.log (Training (ctor 1) ['a'] ['X']) ['b']).vocabularies]
    decide

/-- C7, amended: in every state reached from the empty model by `Training` and `Classifier`
calls, every token whose count in some category's token table is not 0 is a key of the
vocabulary; and in every state reached by `Training` calls alone, every key of every
category's token table is a key of the vocabulary. -/
theorem C7_tokens_in_vocabulary (log : R → R) (n : Int) (calls : List Call)
    (docs : List (wstring × wstring)) :
    (∀ c t, tokenCount (run log (ctor n) calls) c t ≠ 0 →
      t ∈ UMap.keys (run log (ctor n) calls).vocabularies_) ∧
    (∀ c t, t ∈ UMap.keys (UMap.value (run log (ctor n) (trainingCalls docs)).words_ c []) →
      t ∈ UMap.keys (run log (ctor n) (trainingCalls docs)).vocabularies_) := by
  constructor
  · apply counted_in_vocabulary_run
    intro c t h
    exact absurd rfl h
  · apply keys_in_vocabulary_trained
    intro c t h
    exact absurd h (List.not_mem_nil t)

/-- C7, amended, at n = 1 and the calls `Training("a", "X")`, `Classifier("b")`: the token
"a" has a count different from 0 under "X" and is a key of the vocabulary. -/
theorem C7_tokens_in_vocabulary_witness :
    tokenCount (run Real.log (ctor 1) [Call.Training ['a'] ['X'], Call.Classifier ['b']])
        ['X'] ['a'] ≠ 0 ∧
      ['a'] ∈ UMap.keys
        (run Real.log (ctor 1) [Call.Training ['a'] ['X'], Call.Classifier ['b']]).vocabularies_ := by
  have h : tokenCount (run Real.log (ctor 1) [Call.Training ['a'] ['X'], Call.Classifier ['b']])
      ['X'] ['a'] ≠ 0 := by
    have e : run Real.log (ctor 1) [Call.Training ['a'] ['X'], Call.Classifier ['b']]
        = (Classifier Real.log (Training (ctor 1) ['a'] ['X']) ['b']).2 := rfl
    rw [e, (Classifier_snd Real.log (Training (ctor 1) ['a'] ['X']) ['b']).count]
    decide
  exact ⟨h, (C7_tokens_in_vocabulary Real.log 1
    [Call.Training ['a'] ['X'], Call.Classifier ['b']] []).1 ['X'] ['a'] h⟩

/-- C8, as stated, fails: with n = 2, after the single call `Training("", "X")` the category
"X" is a key of `category_` and no key of `words_`. -/
theorem C8_counterexample :
    ['X'] ∈ UMap.keys (run Real.log (ctor 2) [Call.Training [] ['X']]).category_ ∧
      ['X'] ∉ UMap.keys (run Real.log (ctor 2) [Call.Training [] ['X']]).words_ := by
  have e : run Real.log (ctor 2) [Call.Training [] ['X']] = Training (ctor 2) [] ['X'] := rfl
  rw [e]
  decide

/-- C8, amended: in every state reached from the empty model by `Training` calls, the keys of
`category_` are the categories named in the calls, the keys of `words_` are the categories
named in a call whose document has at least one token; so every key of `words_` is a key of
`category_`, and the two key sets are equal when every document of the calls has at least one
token. -/
theorem C8_category_keys (log : R → R) (n : Int) (docs : List (wstring × wstring)) :
    (∀ c, c ∈ UMap.keys (run log (ctor n) (trainingCalls docs)).category_ ↔
      ∃ p ∈ docs, p.2 = c) ∧
    (∀ c, c ∈ UMap.keys (run log (ctor n) (trainingCalls docs)).words_ ↔
      ∃ p ∈ docs, p.2 = c ∧ SplitWords (ctor n) p.1 ≠ []) ∧
    (∀ c, c ∈ UMap.keys (run log (ctor n) (trainingCalls docs)).words_ →
      c ∈ UMap.keys (run log (ctor n) (trainingCalls docs)).category_) ∧
    ((∀ p ∈ docs, SplitWords (ctor n) p.1 ≠ []) →
      ∀ c, c ∈ UMap.keys (run log (ctor n) (trainingCalls docs)).category_ ↔
        c ∈ UMap.keys (run log (ctor n) (trainingCalls docs)).words_) := by
  obtain ⟨_, hc, hw⟩ := category_keys_trained log docs (ctor n)
  have hc2 : ∀ c, c ∈ UMap.keys (run log (ctor n) (trainingCalls docs)).category_ ↔
      ∃ p ∈ docs, p.2 = c := by
    intro c
    rw [hc]
    constructor
    · rintro (h | h)
      · exact absurd h (List.not_mem_nil c)
      · exact h
    · exact Or.inr
  have hw2 : ∀ c, c ∈ UMap.keys (run log (ctor n) (trainingCalls docs)).words_ ↔
      ∃ p ∈ docs, p.2 = c ∧ SplitWords (ctor n) p.1 ≠ [] := by
    intro c
    rw [hw]
    constructor
    · rintro (h | h)
      · exact absurd h (List.not_mem_nil c)
      · exact h
    · exact Or.inr
  have hsub : ∀ c, c ∈ UMap.keys (run log (ctor n) (trainingCalls docs)).words_ →
      c ∈ UMap.keys (run log (ctor n) (trainingCalls docs)).category_ := by
    intro c h
    obtain ⟨p, hp, hpc, _⟩ := (hw2 c).mp h
    exact (hc2 c).mpr ⟨p, hp, hpc⟩
  refine ⟨hc2, hw2, hsub, ?_⟩
  intro hall c
  constructor
  · intro h
    obtain ⟨p, hp, hpc⟩ := (hc2 c).mp h
    exact (hw2 c).mpr ⟨p, hp, hpc, hall p hp⟩
  · exact hsub c

/-- C8, amended, at n = 1 and the calls `Training("a", "X")`, `Training("b", "Y")`: every
document has a token and the two key sets agree on "Y". -/
theorem C8_category_keys_witness :
    (∀ p ∈ [((['a'] : wstring), (['X'] : wstring)), (['b'], ['Y'])],
      SplitWords (ctor 1) p.1 ≠ []) ∧
    (['Y'] ∈ UMap.keys
        (run Real.log (ctor 1) (trainingCalls [(['a'], ['X']), (['b'], ['Y'])])).category_ ↔
      ['Y'] ∈ UMap.keys
        (run Real.log (ctor 1) (trainingCalls [(['a'], ['X']), (['b'], ['Y'])])).words_) :=
  ⟨by decide,
    (C8_category_keys Real.log 1 [(['a'], ['X']), (['b'], ['Y'])]).2.2.2 (by decide) ['Y']⟩

/-- C9, as stated, fails: constructing with n = 0 returns a model whose gram size is 0, and
this model tokenizes: "ab" gives the empty token three times. -/
theorem C9_counterexample :
    ctor 0 = { gram_ := 0, category_ := [], words_ := [], vocabularies_ := [] } ∧
      SplitWords (ctor 0) ['a', 'b'] = [([], 3)] := by
  decide

/-- C9, amended: the constructor accepts every `int` n and returns the empty model with
`gram_ = n`; nothing is rejected. On such a model, n = 0 makes `SplitWords` return the empty
token with count `length + 1`, and n < 0 makes it return the empty mapping (for a document
shorter than `2 ^ 64 - 2 ^ 31`). -/
theorem C9_ctor_accepts (n : Int) (doc : wstring) :
    ctor n = { gram_ := n, category_ := [], words_ := [], vocabularies_ := [] } ∧
    (n = 0 → SplitWords (ctor n) doc = [([], (doc.length : Int) + 1)]) ∧
    (n < 0 → INT_MIN ≤ n → doc.length < 2 ^ 64 - 2 ^ 31 → SplitWords (ctor n) doc = []) :=
  ⟨rfl, fun h => SplitWords_zero (ctor n) doc h,
    fun h0 h1 h2 => SplitWords_neg (ctor n) doc h0 h1 h2⟩

/-- C9, amended, at n = -1 and the document "ab": the model is constructed and its
tokenizer returns the empty mapping. -/
theorem C9_ctor_accepts_witness :
    ((-1 : Int) < 0 ∧ INT_MIN ≤ (-1 : Int) ∧ ['a', 'b'].length < 2 ^ 64 - 2 ^ 31) ∧
      SplitWords (ctor (-1)) ['a', 'b'] = [] :=
  ⟨⟨by decide, by decide, by decide⟩,
    (C9_ctor_accepts (-1) ['a', 'b']).2.2 (by decide) (by decide) (by decide)⟩

/-- C10: on a model whose category set is empty, `Classifier(doc)` returns the empty label
for every document. -/
theorem C10_Classifier_empty_model (log : R → R) (m : NaiveBayes) (doc : wstring)
    (h : m.category_ = []) : (Classifier log m doc).1 = [] := by
  unfold Classifier
  rw [h]
  rfl

/-- C10 at the freshly constructed model with n = 2 and the document "ab". -/
theorem C10_Classifier_empty_model_witness :
    (ctor 2).category_ = [] ∧ (Classifier Real.log (ctor 2) ['a', 'b']).1 = [] :=
  ⟨rfl, C10_Classifier_empty_model Real.log (ctor 2) ['a', 'b'] rfl⟩

/-- C11, as stated, fails: with n = 1, after the single call `Training("", "X")` the category
"X" has received a training call and the denominator `SumCategory("X") + |Vocabulary|` is 0. -/
theorem C11_counterexample :
    (SumCategory (run Real.log (ctor 1) [Call.Training [] ['X']]) ['X']).1
      + ((run Real.log (ctor 1) [Call.Training [] ['X']]).vocabularies_.length : Int) = 0 := by
  have e : run Real.log (ctor 1) [Call.Training [] ['X']] = Training (ctor 1) [] ['X'] := rfl
  rw [e]
  decide

/-- C11, amended: in every state reached from the empty model by `Training` and `Classifier`
calls, for every category `c` and token `t`, the count `TokenCounts[c][t]` and the total
`SumCategory(c)` are not negative, so the numerator is at least 1; the denominator
`SumCategory(c) + |Vocabulary|` is 0 exactly when no `Training` call had a document with at
least one token; and when some `Training` call had one, the quantity under the logarithm is
strictly positive. -/
theorem C11_likelihood_positive (log : R → R) (n : Int) (calls : List Call) (c t : wstring) :
    0 ≤ tokenCount (run log (ctor n) calls) c t ∧
    0 ≤ (SumCategory (run log (ctor n) calls) c).1 ∧
    ((SumCategory (run log (ctor n) calls) c).1
        + ((run log (ctor n) calls).vocabularies_.length : Int) = 0 ↔
      ∀ doc cate, Call.Training doc cate ∈ calls → SplitWords (ctor n) doc = []) ∧
    ((∃ doc cate, Call.Training doc cate ∈ calls ∧ SplitWords (ctor n) doc ≠ []) →
      (0 : R) < ((tokenCount (run log (ctor n) calls) c t : Int) + 1 : R)
        / (((SumCategory (run log (ctor n) calls) c).1 : Int)
            + ((run log (ctor n) calls).vocabularies_.length : R))) := by
  have hcount : 0 ≤ tokenCount (run log (ctor n) calls) c t :=
    tokenCount_nonneg_run log calls (ctor n) (fun _ _ => le_refl _) c t
  have hsum : (SumCategory (run log (ctor n) calls) c).1
      = (trainedInstances (size_t (ctor n).gram_) c calls : Int) := by
    rw [SumCategory_run]
    simp [SumCategory_fst, ctor, UMap.value, UMap.find_nil, totalCount_nil]
  have hs0 : 0 ≤ (SumCategory (run log (ctor n) calls) c).1 := by
    rw [hsum]
    exact Int.natCast_nonneg _
  have hv := vocabularies_run_eq_nil log calls (ctor n)
  have hzero : (SumCategory (run log (ctor n) calls) c).1
        + ((run log (ctor n) calls).vocabularies_.length : Int) = 0 ↔
      ∀ doc cate, Call.Training doc cate ∈ calls → SplitWords (ctor n) doc = [] := by
    constructor
    · intro h
      have hl : (run log (ctor n) calls).vocabularies_.length = 0 := by omega
      exact (hv.mp (List.length_eq_zero.mp hl)).2
    · intro h
      have hnil := hv.mpr ⟨rfl, h⟩
      have hz : trainedInstances (size_t (ctor n).gram_) c calls = 0 :=
        trainedInstances_eq_zero _ c calls
          (fun doc cate hmem => (SplitWords_eq_nil_iff (ctor n) doc).mp (h doc cate hmem))
      rw [hsum, hz, hnil]
      rfl
  refine ⟨hcount, hs0, hzero, ?_⟩
  rintro ⟨doc, cate, hmem, hne⟩
  have hpos : 0 < (SumCategory (run log (ctor n) calls) c).1
      + ((run log (ctor n) calls).vocabularies_.length : Int) := by
    rcases lt_or_eq_of_le (add_nonneg hs0 (Int.natCast_nonneg
      (run log (ctor n) calls).vocabularies_.length)) with h | h
    · exact h
    · exact absurd (hzero.mp h.symm doc cate hmem) hne
  have hden : (0 : R) < (((SumCategory (run log (ctor n) calls) c).1 : Int) : R)
      + ((run log (ctor n) calls).vocabularies_.length : R) := by
    have := (Int.cast_pos (R := R)).mpr hpos
    push_cast at this
    exact this
  have hnum : (0 : R) < ((tokenCount (run log (ctor n) calls) c t : Int) : R) + 1 := by
    have : (0 : R) ≤ ((tokenCount (run log (ctor n) calls) c t : Int) : R) :=
      Int.cast_nonneg.mpr hcount
    linarith
  exact div_pos hnum hden

/-- C11, amended, at n = 1, the calls `Training("a", "X")`, `Training("", "Y")`, the category
"Y" and the token "b", neither seen under "Y": the quantity is positive. -/
theorem C11_likelihood_positive_witness :
    (∃ doc cate, Call.Training doc cate ∈ [Call.Training ['a'] ['X'], Call.Training [] ['Y']] ∧
        SplitWords (ctor 1) doc ≠ []) ∧
      (0 : ℝ) < ((tokenCount (run Real.log (ctor 1)
          [Call.Training ['a'] ['X'], Call.Training [] ['Y']]) ['Y'] ['b'] : Int) + 1 : ℝ)
        / (((SumCategory (run Real.log (ctor 1)
              [Call.Training ['a'] ['X'], Call.Training [] ['Y']]) ['Y']).1 : Int)
            + ((run Real.log (ctor 1)
              [Call.Training ['a'] ['X'], Call.Training [] ['Y']]).vocabularies_.length : ℝ)) :=
  ⟨⟨['a'], ['X'], by decide, by decide⟩,
    (C11_likelihood_positive Real.log 1 [Call.Training ['a'] ['X'], Call.Training [] ['Y']]
      ['Y'] ['b']).2.2.2 ⟨['a'], ['X'], by decide, by decide⟩⟩

/-- C12: the label `Classifier(d)` returns is the same in the state in which it is first
called and in the state after any sequence of further `Classifier` calls (no `Training` call
in between), whatever their documents. -/
theorem C12_Classifier_deterministic (log : R → R) (m : NaiveBayes) (d : wstring)
    (ds : List wstring) :
    (Classifier log (run log m (ds.map Call.Classifier)) d).1 = (Classifier log m d).1 :=
  Classifier_congr log (SameCounts_run_Classifier log ds m) d

/-- C13: when every `Training` call of the sequence names the same category `c` and there is
at least one, `Classifier(doc)` returns `c` for every document, the empty one included. The
bounds are those of the C++ types: the document length and the size of the vocabulary are
`size_t` values, the category token total is an `int`. -/
theorem C13_single_category (n : Int) (calls : List Call) (c doc : wstring)
    (h1 : ∃ d, Call.Training d c ∈ calls)
    (h2 : ∀ d cate, Call.Training d cate ∈ calls → cate = c)
    (h3 : doc.length < 2 ^ 64)
    (h4 : (SumCategory (run Real.log (ctor n) calls) c).1 ≤ INT_MAX)
    (h5 : (run Real.log (ctor n) calls).vocabularies_.length < 2 ^ 64) :
    (Classifier Real.log (run Real.log (ctor n) calls) doc).1 = c := by
  rcases category_single_run Real.log c calls (ctor n) h2 (Or.inl rfl) with ⟨_, hno⟩ | ⟨k, hk, hcat⟩
  · obtain ⟨d, hd⟩ := h1
    exact absurd hd (hno d c)
  · have hc : ∀ t, 0 ≤ tokenCount (run Real.log (ctor n) calls) c t :=
      fun t => tokenCount_nonneg_run Real.log calls (ctor n) (fun _ _ => le_refl _) c t
    have hs : 0 ≤ (SumCategory (run Real.log (ctor n) calls) c).1 := by
      rw [SumCategory_run]
      have : (SumCategory (ctor n) c).1 = 0 := rfl
      rw [this]
      have := Int.natCast_nonneg (trainedInstances (size_t (ctor n).gram_) c calls)
      omega
    exact Classifier_single _ doc c k hk hcat hc hs h3 h4 h5

/-- C13 at n = 2, the calls `Training("abc", "X")`, `Training("", "X")` and the empty
document. -/
theorem C13_single_category_witness :
    (Classifier Real.log
      (run Real.log (ctor 2) [Call.Training ['a', 'b', 'c'] ['X'], Call.Training [] ['X']])
      []).1 = ['X'] :=
  C13_single_category 2 [Call.Training ['a', 'b', 'c'] ['X'], Call.Training [] ['X']] ['X'] []
    ⟨['a', 'b', 'c'], by decide⟩
    (by
      intro d cate hmem
      simp only [List.mem_cons, Call.Training.injEq, List.mem_singleton, List.not_mem_nil,
        or_false] at hmem
      rcases hmem with ⟨_, h⟩ | ⟨_, h⟩ <;> exact h)
    (by decide) (by decide) (by decide)

set_option maxRecDepth 8192 in
/-- C14, as stated, fails: with n = 1, after `Training("", "A")` twice and `Training("", "B")`
once (the state `emptyDocsModel`), for the token mapping of the document "a": the count of A
is greater than that of B, which is 1, the per-token counts agree and both totals are 0;
`sum_cate + |Vocabulary|` is 0, both scores are `+inf` and the score of A is not greater than
the score of B. -/
theorem C14_counterexample :
    (UMap.value emptyDocsModel.category_ ['B'] 0 < UMap.value emptyDocsModel.category_ ['A'] 0 ∧
      1 ≤ UMap.value emptyDocsModel.category_ ['B'] 0 ∧
      (∀ w ∈ SplitWords emptyDocsModel ['a'],
        tokenCount emptyDocsModel ['A'] w.1 = tokenCount emptyDocsModel ['B'] w.1) ∧
      (SumCategory emptyDocsModel ['A']).1 = (SumCategory emptyDocsModel ['B']).1) ∧
    (Score Real.log emptyDocsModel (SplitWords emptyDocsModel ['a']) ['A']
      (SumCategory emptyDocsModel ['A']).1).1 = Dbl.pinf ∧
    (Score Real.log emptyDocsModel (SplitWords emptyDocsModel ['a']) ['B']
      (SumCategory emptyDocsModel ['B']).1).1 = Dbl.pinf ∧
    Dbl.lt
      (Score Real.log emptyDocsModel (SplitWords emptyDocsModel ['a']) ['B']
        (SumCategory emptyDocsModel ['B']).1).1
      (Score Real.log emptyDocsModel (SplitWords emptyDocsModel ['a']) ['A']
        (SumCategory emptyDocsModel ['A']).1).1 = false := by
  have hA : (Score Real.log emptyDocsModel (SplitWords emptyDocsModel ['a']) ['A']
      (SumCategory emptyDocsModel ['A']).1).1 = Dbl.pinf :=
    Score_fst_pinf Real.log _ _ _ _ (by decide) (by decide) (by decide) (by decide)
  have hB : (Score Real.log emptyDocsModel (SplitWords emptyDocsModel ['a']) ['B']
      (SumCategory emptyDocsModel ['B']).1).1 = Dbl.pinf :=
    Score_fst_pinf Real.log _ _ _ _ (by decide) (by decide) (by decide) (by decide)
  refine ⟨⟨by decide, by decide, by decide, by decide⟩, hA, hB, ?_⟩
  rw [hA, hB]
  rfl

/-- C14, amended: for every model state reached from the empty model by a sequence of
`Training` and `Classifier` calls and every token-count mapping `words`, if
`CategoryCounts[A]` is greater than `CategoryCounts[B]`, the latter is at least 1, the
per-token counts of A and B agree on every token of `words`, and the category token totals
passed to `Score` are equal, then the score of A is strictly greater than the score of B
whenever `words` is empty or `sum_cate + |Vocabulary|` is positive; when `words` has a token
and `sum_cate + |Vocabulary|` is 0, both scores are `+inf` and neither is greater. With the
total of `SumCategory` these are the only cases: `SumCategory(A) + |Vocabulary|` is not
negative. -/
theorem C14_prior_ordering (n : Int) (calls : List Call) (words : Count) (A B : wstring)
    (sA sB : Int)
    (h1 : UMap.value (run Real.log (ctor n) calls).category_ B 0 < UMap.value (run Real.log (ctor n) calls).category_ A 0)
    (h2 : 1 ≤ UMap.value (run Real.log (ctor n) calls).category_ B 0)
    (h3 : ∀ w ∈ words, tokenCount (run Real.log (ctor n) calls) A w.1 = tokenCount (run Real.log (ctor n) calls) B w.1)
    (h4 : sA = sB) :
    ((words = [] ∨ 0 < sA + ((run Real.log (ctor n) calls).vocabularies_.length : Int)) →
      Dbl.lt (Score Real.log (run Real.log (ctor n) calls) words B sB).1 (Score Real.log (run Real.log (ctor n) calls) words A sA).1 = true) ∧
    (words ≠ [] → sA + ((run Real.log (ctor n) calls).vocabularies_.length : Int) = 0 →
      (Score Real.log (run Real.log (ctor n) calls) words A sA).1 = Dbl.pinf ∧
      (Score Real.log (run Real.log (ctor n) calls) words B sB).1 = Dbl.pinf ∧
      Dbl.lt (Score Real.log (run Real.log (ctor n) calls) words B sB).1 (Score Real.log (run Real.log (ctor n) calls) words A sA).1 = false) ∧
    0 ≤ (SumCategory (run Real.log (ctor n) calls) A).1 + ((run Real.log (ctor n) calls).vocabularies_.length : Int) := by
  subst h4
  have h5 : ∀ w ∈ words, 0 ≤ tokenCount (run Real.log (ctor n) calls) A w.1 := fun w _ =>
    tokenCount_nonneg_run Real.log calls (ctor n) (fun _ _ => le_refl _) A w.1
  have h := Score_prior_ordering (run Real.log (ctor n) calls) words A B sA h1 h2 h3 h5
  refine ⟨h.1, h.2, ?_⟩
  have := SumCategory_nonneg_run n calls A
  omega

/-- C14, amended, at n = 1 and the calls `Training("a", "A")`, `Training("", "A")`,
`Training("a", "B")`: both categories have the count 1 for "a" and the total 1,
`sum_cate + |Vocabulary|` is 2; the document is "a". -/
theorem C14_prior_ordering_witness :
    Dbl.lt
      (Score Real.log (run Real.log (ctor 1)
        [Call.Training ['a'] ['A'], Call.Training [] ['A'], Call.Training ['a'] ['B']]) [(['a'], 1)] ['B'] 1).1
      (Score Real.log (run Real.log (ctor 1)
        [Call.Training ['a'] ['A'], Call.Training [] ['A'], Call.Training ['a'] ['B']]) [(['a'], 1)] ['A'] 1).1 = true :=
  (C14_prior_ordering 1
    [Call.Training ['a'] ['A'], Call.Training [] ['A'], Call.Training ['a'] ['B']]
    [(['a'], 1)] ['A'] ['B'] 1 1 (by decide) (by decide) (by decide) rfl).1
    (Or.inr (by decide))

/-- C15: for `1 ≤ gram_` and a document shorter than `gram_` (the empty one included), the
score `Classifier` computes for a category `c` is the prior term alone,
`log (CategoryCounts[c] / number of categories)` in the arithmetic of doubles, the number of
categories being `category_.size()` for a key `c`; for a category whose count is at least 1
this is the real number `ln (CategoryCounts[c] / number of categories)`, and in a state
reached from the empty model by `Training` and `Classifier` calls every key of `category_`
has a count of at least 1. -/
theorem C15_short_document_score (m : NaiveBayes) (doc c : wstring)
    (h1 : 1 ≤ m.gram_) (h2 : m.gram_ ≤ INT_MAX) (h3 : doc.length < m.gram_.toNat) :
    categoryScore Real.log m doc c
      = Dbl.log Real.log (Dbl.div ((UMap.value m.category_ c 0 : Int) : ℝ)
          ((UMap.alter m.category_ c 0 id).length : ℝ)) ∧
    (c ∈ UMap.keys m.category_ →
      (UMap.alter m.category_ c 0 id).length = m.category_.length) ∧
    (1 ≤ UMap.value m.category_ c 0 →
      categoryScore Real.log m doc c
        = Dbl.fin (Real.log (((UMap.value m.category_ c 0 : Int) : ℝ)
            / (m.category_.length : ℝ)))) ∧
    (∀ (n : Int) (calls : List Call), m = run Real.log (ctor n) calls →
      c ∈ UMap.keys m.category_ → 1 ≤ UMap.value m.category_ c 0) := by
  have hg : size_t m.gram_ = m.gram_.toNat := size_t_of_nonneg (by omega) h2
  have hw : SplitWords m doc = [] := (SplitWords_eq_nil_iff m doc).mpr (by omega)
  refine ⟨?_, ?_, ?_, ?_⟩
  rotate_left 3
  · intro n calls hm hc
    subst hm
    exact value_pos_of_entries _ hc (category_entries_pos_run Real.log calls (ctor n)
      (fun x hx => absurd hx (List.not_mem_nil x)))
  · rw [categoryScore_eq, hw, List.map_nil, List.sum_nil, Dbl.add_zero_right]
  · intro h
    rw [UMap.alter_id_of_mem _ _ h]
  · intro hk
    have hc : ∀ w ∈ SplitWords m doc, 0 ≤ tokenCount m c w.1 := by
      rw [hw]
      intro w hw2
      exact absurd hw2 (List.not_mem_nil w)
    rw [categoryScore_fin Real.log m doc c hk hc (Or.inl hw), hw]
    unfold scoreValue
    simp

/-- C15 at the model trained once with ("abc", "X"), n = 2, and the document "a". -/
theorem C15_short_document_score_witness :
    categoryScore Real.log (Training (ctor 2) ['a', 'b', 'c'] ['X']) ['a'] ['X']
      = Dbl.fin (Real.log
          (((UMap.value (Training (ctor 2) ['a', 'b', 'c'] ['X']).category_ ['X'] 0 : Int) : ℝ)
            / ((Training (ctor 2) ['a', 'b', 'c'] ['X']).category_.length : ℝ))) :=
  (C15_short_document_score (Training (ctor 2) ['a', 'b', 'c'] ['X']) ['a'] ['X']
    (by decide) (by decide) (by decide)).2.2.1 (by decide)

/-- C16: for a window length `1 ≤ gram_ ≤ doc.length`, the counts of `SplitWords(doc)` sum to
`doc.length - gram_ + 1` and every key has exactly `gram_` characters. -/
theorem C16_SplitWords_instances (m : NaiveBayes) (doc : wstring)
    (h1 : 1 ≤ m.gram_) (h2 : m.gram_ ≤ INT_MAX) (h3 : m.gram_.toNat ≤ doc.length) :
    totalCount (SplitWords m doc) = (doc.length : Int) - m.gram_ + 1 ∧
    (∀ t ∈ UMap.keys (SplitWords m doc), (t.length : Int) = m.gram_) := by
  have hg : size_t m.gram_ = m.gram_.toNat := size_t_of_nonneg (by omega) h2
  constructor
  · rw [totalCount_SplitWords, hg]
    omega
  · intro t ht
    obtain ⟨i, hi, rfl⟩ := (mem_keys_SplitWords m doc t).mp ht
    rw [length_substr doc i _ hi, hg]
    omega

/-- C16 at n = 2 and the document "ababa". -/
theorem C16_SplitWords_instances_witness :
    totalCount (SplitWords (ctor 2) ['a', 'b', 'a', 'b', 'a'])
        = (['a', 'b', 'a', 'b', 'a'].length : Int) - (ctor 2).gram_ + 1 ∧
    (∀ t ∈ UMap.keys (SplitWords (ctor 2) ['a', 'b', 'a', 'b', 'a']),
      (t.length : Int) = (ctor 2).gram_) :=
  C16_SplitWords_instances (ctor 2) ['a', 'b', 'a', 'b', 'a'] (by decide) (by decide)
    (by decide)

/-- C17: after `Training(doc, c)` the keys of the vocabulary are the keys before the call
together with the tokens of `SplitWords(doc)`; no key is removed and the size of the
vocabulary does not decrease. -/
theorem C17_vocabulary_growth (m : NaiveBayes) (doc c : wstring) :
    (∀ t, t ∈ UMap.keys (Training m doc c).vocabularies_ ↔
      t ∈ UMap.keys m.vocabularies_ ∨ t ∈ UMap.keys (SplitWords m doc)) ∧
    (∀ t, t ∈ UMap.keys m.vocabularies_ → t ∈ UMap.keys (Training m doc c).vocabularies_) ∧
    m.vocabularies_.length ≤ (Training m doc c).vocabularies_.length :=
  ⟨fun t => mem_keys_vocabularies_Training m doc c t,
    fun t h => (mem_keys_vocabularies_Training m doc c t).mpr (Or.inl h),
    length_vocabularies_Training_fold c (SplitWords m doc) m⟩

/-- C18: with n = 2, after `Training("aaa", "X")` and `Training("bbb", "Y")`, in either
iteration order of the two categories, `Classifier("aaa")` returns "X" and a following
`Classifier("bbb")` returns "Y". -/
theorem C18_scenario (cats : Count)
    (h : cats.Perm
      (Training (Training (ctor 2) ['a', 'a', 'a'] ['X']) ['b', 'b', 'b'] ['Y']).category_) :
    (Classifier Real.log
        (withOrder (Training (Training (ctor 2) ['a', 'a', 'a'] ['X']) ['b', 'b', 'b'] ['Y'])
          cats) ['a', 'a', 'a']).1 = ['X'] ∧
    (Classifier Real.log
        (Classifier Real.log
          (withOrder (Training (Training (ctor 2) ['a', 'a', 'a'] ['X']) ['b', 'b', 'b'] ['Y'])
            cats) ['a', 'a', 'a']).2 ['b', 'b', 'b']).1 = ['Y'] := by
  have e0 : (Training (Training (ctor 2) ['a', 'a', 'a'] ['X']) ['b', 'b', 'b'] ['Y']).category_
      = [(['X'], 1), (['Y'], 1)] := by decide
  rw [e0] at h
  have hc := perm_pair h
  have hX : ['X'] ∈ UMap.keys cats := by rcases hc with rfl | rfl <;> decide
  have hY : ['Y'] ∈ UMap.keys cats := by rcases hc with rfl | rfl <;> decide
  have hkeys : ∀ x ∈ UMap.keys cats, x = ['X'] ∨ x = ['Y'] := by
    intro x hx
    rcases hc with rfl | rfl <;>
      simp only [UMap.keys_cons, UMap.keys_nil, List.mem_cons, List.mem_singleton,
        List.not_mem_nil, or_false] at hx <;> tauto
  obtain ⟨aX, aY, bX, bY, _, _⟩ := scores_aaa_bbb cats hc
  obtain ⟨hhalf, h34, _, hlt⟩ := log_bounds
  constructor
  · apply Classifier_of_greatest Real.log _ _ (w := ['X']) hX
    · rw [aX]
      exact neg_DBL_MAX_lt (by linarith)
    · intro x hx hne
      rcases hkeys x hx with rfl | rfl
      · exact absurd rfl hne
      · rw [aX, aY, Dbl.lt_fin_fin]
        linarith
  · rw [Classifier_congr Real.log (Classifier_snd Real.log _ ['a', 'a', 'a']) ['b', 'b', 'b']]
    apply Classifier_of_greatest Real.log _ _ (w := ['Y']) hY
    · rw [bY]
      exact neg_DBL_MAX_lt (by linarith)
    · intro x hx hne
      rcases hkeys x hx with rfl | rfl
      · rw [bX, bY, Dbl.lt_fin_fin]
        linarith
      · exact absurd rfl hne

/-- C18 in the iteration order "Y", "X". -/
theorem C18_scenario_witness :
    (Classifier Real.log
        (withOrder (Training (Training (ctor 2) ['a', 'a', 'a'] ['X']) ['b', 'b', 'b'] ['Y'])
          [(['Y'], 1), (['X'], 1)]) ['a', 'a', 'a']).1 = ['X'] ∧
    (Classifier Real.log
        (Classifier Real.log
          (withOrder (Training (Training (ctor 2) ['a', 'a', 'a'] ['X']) ['b', 'b', 'b'] ['Y'])
            [(['Y'], 1), (['X'], 1)]) ['a', 'a', 'a']).2 ['b', 'b', 'b']).1 = ['Y'] :=
  C18_scenario [(['Y'], 1), (['X'], 1)] (by decide)

/-- C20: for `1 ≤ n` and every sequence of `Training` and `Classifier` calls on the empty
model, `SumCategory(c)` is the sum of `length - n + 1` over the `Training` calls under `c`
whose document has at least `n` characters; every other call contributes 0. -/
theorem C20_SumCategory_instances (log : R → R) (n : Int) (calls : List Call) (c : wstring)
    (h1 : 1 ≤ n) (h2 : n ≤ INT_MAX) :
    (SumCategory (run log (ctor n) calls) c).1 = (trainedInstances n.toNat c calls : Int) := by
  have hg : size_t (ctor n).gram_ = n.toNat :=
    size_t_of_nonneg (le_trans (by decide) h1) h2
  rw [SumCategory_run, hg]
  simp [SumCategory_fst, ctor, UMap.value, UMap.find_nil, totalCount_nil]

/-- C20 at n = 2 and the calls `Training("abcd", "X")`, `Classifier("zz")`,
`Training("a", "X")`, `Training("abc", "Y")`, `Training("abc", "X")`: the total of "X"
is 3 + 0 + 2 = 5. -/
theorem C20_SumCategory_instances_witness :
    (SumCategory (run Real.log (ctor 2)
        [Call.Training ['a', 'b', 'c', 'd'] ['X'], Call.Classifier ['z', 'z'],
          Call.Training ['a'] ['X'], Call.Training ['a', 'b', 'c'] ['Y'],
          Call.Training ['a', 'b', 'c'] ['X']]) ['X']).1 = 5 :=
  (C20_SumCategory_instances Real.log 2
    [Call.Training ['a', 'b', 'c', 'd'] ['X'], Call.Classifier ['z', 'z'],
      Call.Training ['a'] ['X'], Call.Training ['a', 'b', 'c'] ['Y'],
      Call.Training ['a', 'b', 'c'] ['X']] ['X'] (by decide) (by decide)).trans (by decide)

end NaiveBayes

end nb
